import Mathlib

/-!
# cachehash: a bounded, recency-ordered key/value cache

A shallow embedding of `src/internal/cachehash/cachehash.go`.

* Keys and values are Go `interface{}` values.  They are modelled by two types `K` and `V`,
  each with a distinguished `nil` element (`default`); `K` has decidable, reflexive equality
  (the key values a Go map can hold and find again).
* `*list.Element` pointers are addresses (natural numbers) into an append-only store `mem`
  of element cells; the cell of an element holds its `Value` field.
* `container/list.List` is the sequence of element addresses from front to back.
* `map[interface{}]*list.Element` is an association list with at most one pair per key.
* `int` is modelled by `Int`.
* The eviction callback is a function reference of type `F`; every invocation is appended
  to the trace `calls`.
* A Go panic is the `Except.error` outcome of an operation.
* The embedded `sync.Mutex` is the boolean field `Mutex`, true when the mutex is locked.

The pattern `dmarcPrefixRegexp` of `pkg/modules/dmarc/dmarc.go` is embedded in the
namespace `dmarc` as a list of character classes, matched against a prefix of the text.
-/

set_option linter.unusedSectionVars false

namespace cachehash

/-- The two ways a method of the cache can panic. -/
inductive Fault where
  | invalidType
  | nilDeref
  deriving DecidableEq, Repr

/-- The struct `keyValue` of the source. -/
structure keyValue (K V : Type) where
  Key : K
  Value : V
  deriving DecidableEq, Repr

/-- The dynamic content of the `Value interface{}` field of a `list.Element`:
a `keyValue`, or a value of any other dynamic type. -/
inductive Any (K V : Type) where
  | kv (x : keyValue K V)
  | other
  deriving DecidableEq, Repr

/-- The struct `CacheHash` of the source, together with the store `mem` of element cells
its pointers refer to and the trace `calls` of the callback invocations made so far.
The field `Mutex` is the embedded `sync.Mutex`: true when the mutex is locked. -/
structure CacheHash (F K V : Type) where
  Mutex : Bool
  h : List (K × Nat)
  l : List Nat
  len : Int
  maxLen : Int
  ejectCB : Option F
  mem : List (Any K V)
  calls : List (F × K × V)
  deriving DecidableEq, Repr

section model

variable {F K V : Type} [DecidableEq K]

/-! ### Go maps -/

/-- The lookup `e, ok := h[k]`: `none` stands for `ok == false`. -/
def mapGet : List (K × Nat) → K → Option Nat
  | [], _ => none
  | (k', e) :: h, k => if k' = k then some e else mapGet h k

/-- The statement `delete(h, k)`. -/
def mapDelete : List (K × Nat) → K → List (K × Nat)
  | [], _ => []
  | (k', e) :: h, k => if k' = k then mapDelete h k else (k', e) :: mapDelete h k

/-- The assignment `h[k] = e`. -/
def mapSet (h : List (K × Nat)) (k : K) (e : Nat) : List (K × Nat) :=
  (k, e) :: mapDelete h k

/-! ### container/list -/

/-- The method `l.Front()`: `none` stands for the nil pointer. -/
def Front (l : List Nat) : Option Nat := l.head?

/-- The method `l.Back()`: `none` stands for the nil pointer. -/
def Back (l : List Nat) : Option Nat := l.getLast?

/-- The method `l.MoveToFront(e)`: nothing happens when `e` is not an element of `l`. -/
def MoveToFront (l : List Nat) (e : Nat) : List Nat :=
  if e ∈ l then e :: l.erase e else l

/-- The method `l.Remove(e)`: nothing happens when `e` is not an element of `l`. -/
def Remove (l : List Nat) (e : Nat) : List Nat := l.erase e

/-- The type assertion `kv, ok := e.Value.(keyValue)` followed by the panic on `!ok`,
for the element at address `e`. -/
def elemKV (c : CacheHash F K V) (e : Nat) : Except Fault (keyValue K V) :=
  match c.mem[e]? with
  | some (Any.kv x) => Except.ok x
  | some Any.other => Except.error Fault.invalidType
  | none => Except.error Fault.nilDeref

/-! ### The methods of `CacheHash` -/

/-- The method `Init`: a new empty list and map, `len = 0`, the given `maxLen`.
The field `ejectCB` of the receiver is not assigned. -/
def Init (c : CacheHash F K V) (maxLen : Int) : CacheHash F K V :=
  { c with l := [], h := [], len := 0, maxLen := maxLen }

/-- The zero value of the struct, the receiver of the first `Init`. -/
def zero : CacheHash F K V :=
  { Mutex := false, h := [], l := [], len := 0, maxLen := 0, ejectCB := none, mem := [],
    calls := [] }

/-- The method `Eject`. -/
def Eject (c : CacheHash F K V) : Except Fault (CacheHash F K V) :=
  if c.len = 0 then Except.ok c
  else
    match Back c.l with
    | none => Except.error Fault.nilDeref
    | some e =>
      match elemKV c e with
      | Except.error f => Except.error f
      | Except.ok kv =>
        let calls :=
          match c.ejectCB with
          | some f => c.calls ++ [(f, kv.Key, kv.Value)]
          | none => c.calls
        Except.ok { c with
          calls := calls, h := mapDelete c.h kv.Key, l := Remove c.l e, len := c.len - 1 }

/-- The method `Add`.  On an existing key the assignments `kv.Key = k; kv.Value = v`
go to the local copy `kv` of the element's value; the element itself is only moved. -/
def Add (c : CacheHash F K V) (k : K) (v : V) : Except Fault (Bool × CacheHash F K V) :=
  match mapGet c.h k with
  | some e =>
    match elemKV c e with
    | Except.error f => Except.error f
    | Except.ok kv =>
      let _kv : keyValue K V := { kv with Key := k, Value := v }
      Except.ok (true, { c with l := MoveToFront c.l e })
  | none =>
    match (if c.len ≥ c.maxLen then Eject c else Except.ok c) with
    | Except.error f => Except.error f
    | Except.ok c1 =>
      let kv : keyValue K V := { Key := k, Value := v }
      let e := c1.mem.length
      Except.ok (false, { c1 with
        mem := c1.mem ++ [Any.kv kv], l := e :: c1.l, len := c1.len + 1,
        h := mapSet c1.h k e })

/-- The method `Has`. -/
def Has (c : CacheHash F K V) (k : K) : Bool :=
  (mapGet c.h k).isSome

/-- The method `Len`. -/
def Len (c : CacheHash F K V) : Int := c.len

/-- The method `RegisterCB`; `none` is the nil function value. -/
def RegisterCB (c : CacheHash F K V) (newCB : Option F) : CacheHash F K V :=
  { c with ejectCB := newCB }

/-- The key and value held by the element at address `e`, when it holds a `keyValue`. -/
def cell (c : CacheHash F K V) (e : Nat) : Option (K × V) :=
  match c.mem[e]? with
  | some (Any.kv x) => some (x.Key, x.Value)
  | _ => none

/-- The recency order: the keys and values of the list nodes from front to back. -/
def entries (c : CacheHash F K V) : List (K × V) :=
  c.l.filterMap (cell c)

/-- The state `Eject` leaves when it removes the node `e` holding `x`. -/
def ejected (c : CacheHash F K V) (e : Nat) (x : keyValue K V) : CacheHash F K V :=
  { c with
    calls := (match c.ejectCB with
      | some f => c.calls ++ [(f, x.Key, x.Value)]
      | none => c.calls),
    h := mapDelete c.h x.Key, l := Remove c.l e, len := c.len - 1 }

/-- The state `Add` leaves when it pushes a node for the absent key `k`. -/
def pushed (c : CacheHash F K V) (k : K) (v : V) : CacheHash F K V :=
  { c with
    mem := c.mem ++ [Any.kv { Key := k, Value := v }], l := c.mem.length :: c.l,
    len := c.len + 1, h := mapSet c.h k c.mem.length }

/-- The representation invariant: the list nodes are distinct, each holds a `keyValue`
whose key the index maps back to the node, the index points only to list nodes holding
its key, and the counter is the number of nodes. -/
structure Inv (c : CacheHash F K V) : Prop where
  nodup : c.l.Nodup
  node : ∀ e ∈ c.l, ∃ x, c.mem[e]? = some (Any.kv x) ∧ mapGet c.h x.Key = some e
  index : ∀ k e, mapGet c.h k = some e →
    e ∈ c.l ∧ ∃ x, c.mem[e]? = some (Any.kv x) ∧ x.Key = k
  keys : (c.h.map Prod.fst).Nodup
  size : c.len = c.l.length
  hsize : c.h.length = c.l.length
  bound : c.len ≤ max c.maxLen 1

variable [Inhabited K] [Inhabited V]

/-- The method `First`; `default` is the nil interface value. -/
def First (c : CacheHash F K V) : Except Fault (K × V) :=
  if c.len = 0 then Except.ok (default, default)
  else
    match Front c.l with
    | none => Except.error Fault.nilDeref
    | some e =>
      match elemKV c e with
      | Except.error f => Except.error f
      | Except.ok kv => Except.ok (kv.Key, kv.Value)

/-- The method `Last`. -/
def Last (c : CacheHash F K V) : Except Fault (K × V) :=
  if c.len = 0 then Except.ok (default, default)
  else
    match Back c.l with
    | none => Except.error Fault.nilDeref
    | some e =>
      match elemKV c e with
      | Except.error f => Except.error f
      | Except.ok kv => Except.ok (kv.Key, kv.Value)

/-- The method `Get`. -/
def Get (c : CacheHash F K V) (k : K) : Except Fault ((V × Bool) × CacheHash F K V) :=
  match mapGet c.h k with
  | none => Except.ok ((default, false), c)
  | some e =>
    let c1 := { c with l := MoveToFront c.l e }
    match elemKV c1 e with
    | Except.error f => Except.error f
    | Except.ok kv => Except.ok ((kv.Value, true), c1)

/-- The method `GetNoMove`. -/
def GetNoMove (c : CacheHash F K V) (k : K) : Except Fault (V × Bool) :=
  match mapGet c.h k with
  | none => Except.ok (default, false)
  | some e =>
    match elemKV c e with
    | Except.error f => Except.error f
    | Except.ok kv => Except.ok (kv.Value, true)

/-- The method `Delete`. -/
def Delete (c : CacheHash F K V) (k : K) : Except Fault ((V × Bool) × CacheHash F K V) :=
  match mapGet c.h k with
  | none => Except.ok ((default, false), c)
  | some e =>
    match elemKV c e with
    | Except.error f => Except.error f
    | Except.ok kv =>
      Except.ok ((kv.Value, true),
        { c with h := mapDelete c.h k, l := Remove c.l e, len := c.len - 1 })

/-! ### Calls and reachable states -/

/-- A call of one of the public methods other than `Init`. -/
inductive Op (F K V : Type) where
  | Eject
  | Add (k : K) (v : V)
  | First
  | Last
  | Get (k : K)
  | GetNoMove (k : K)
  | Has (k : K)
  | Delete (k : K)
  | Len
  | RegisterCB (newCB : Option F)
  deriving DecidableEq, Repr

/-- The state a call leaves behind, or the panic it ends in.  The methods that assign no
field of the receiver (`First`, `Last`, `GetNoMove`, `Has`, `Len`) leave the state as it is. -/
def step (c : CacheHash F K V) : Op F K V → Except Fault (CacheHash F K V)
  | Op.Eject => Eject c
  | Op.Add k v => (Add c k v).map Prod.snd
  | Op.First => (First c).map fun _ => c
  | Op.Last => (Last c).map fun _ => c
  | Op.Get k => (Get c k).map Prod.snd
  | Op.GetNoMove k => (GetNoMove c k).map fun _ => c
  | Op.Has _ => Except.ok c
  | Op.Delete k => (Delete c k).map Prod.snd
  | Op.Len => Except.ok c
  | Op.RegisterCB newCB => Except.ok (RegisterCB c newCB)

/-- The state after a sequence of calls, or the first panic. -/
def run (c : CacheHash F K V) : List (Op F K V) → Except Fault (CacheHash F K V)
  | [] => Except.ok c
  | op :: ops =>
    match step c op with
    | Except.error f => Except.error f
    | Except.ok c1 => run c1 ops

/-- The states reachable from `Init` (called on any receiver) by the public methods. -/
inductive Reachable : CacheHash F K V → Prop where
  | init (c0 : CacheHash F K V) (maxLen : Int) : Reachable (Init c0 maxLen)
  | step {c c1 : CacheHash F K V} (op : Op F K V) :
      Reachable c → step c op = Except.ok c1 → Reachable c1

/-- The key a call uses: the key of an `Add`, and the key of a `Get` that finds it. -/
def usedKey (c : CacheHash F K V) : Op F K V → Option K
  | Op.Add k _ => some k
  | Op.Get k => if Has c k then some k else none
  | _ => none

/-- The time of the most recent use of each key, `none` for a key never used: the calls
`ops` are made from the state `c` at the times `t`, `t + 1`, ..., and `s` gives the times
of the uses before `t`. -/
def lastUse (c : CacheHash F K V) (t : Nat) (s : K → Option Nat) :
    List (Op F K V) → K → Option Nat
  | [] => s
  | op :: ops =>
    match step c op with
    | Except.error _ => s
    | Except.ok c1 =>
      lastUse c1 (t + 1) (fun k => if usedKey c op = some k then some t else s k) ops

/-- The key `a` was last used strictly later than the key `b`. -/
def UsedAfter (s : K → Option Nat) (a b : K) : Prop :=
  ∃ ta tb, s a = some ta ∧ s b = some tb ∧ tb < ta

/-- The keys `ks` are in strictly decreasing order of last use, all used before `t`. -/
def Stamped (ks : List K) (t : Nat) (s : K → Option Nat) : Prop :=
  ks.Pairwise (UsedAfter s) ∧ ∀ k ∈ ks, ∃ tk, s k = some tk ∧ tk < t

/-- The method `Lock` of the embedded `sync.Mutex`, which a caller reaches as `c.Lock()`:
`none` when the mutex is locked already (the caller waits). -/
def Lock (c : CacheHash F K V) : Option (CacheHash F K V) :=
  if c.Mutex then none else some { c with Mutex := true }

/-- The method `Unlock` of the embedded `sync.Mutex`. -/
def Unlock (c : CacheHash F K V) : CacheHash F K V :=
  { c with Mutex := false }

/-- A public operation as the specification describes it: acquire the lock, run the
call, release the lock before returning.  `none`: the call waits for the lock. -/
def specGuardedStep (c : CacheHash F K V) (op : Op F K V) :
    Option (Except Fault (CacheHash F K V)) :=
  match Lock c with
  | none => none
  | some c1 => some ((step c1 op).map Unlock)

/-- The state after `Init(maxLen)` on the zero value followed by the calls `ops`. -/
def after (maxLen : Int) (ops : List (Op F K V)) : CacheHash F K V :=
  match run (Init zero maxLen) ops with
  | Except.ok c => c
  | Except.error _ => Init zero maxLen

end model

/-! ### The scenarios of the specification -/

/-- The keys of the scenarios; `nil` is the nil interface value. -/
inductive Name where
  | nil
  | A
  | B
  | C
  deriving DecidableEq, Repr

instance : Inhabited Name := ⟨Name.nil⟩

/-- The callback of the scenarios. -/
inductive Callback where
  | f
  deriving DecidableEq, Repr

/-- The caches of the scenarios: the values are numbers, `none` is the nil value. -/
abbrev Scenario := CacheHash Callback Name (Option Nat)

/-- Capacity 2 after `Add(A,1)`, `Add(B,2)`. -/
def sAB : Scenario := after 2 [Op.Add Name.A (some 1), Op.Add Name.B (some 2)]

/-- Capacity 2 after `Add(A,1)`, `Add(B,2)`, `Add(C,3)`. -/
def sABC : Scenario :=
  after 2 [Op.Add Name.A (some 1), Op.Add Name.B (some 2), Op.Add Name.C (some 3)]

/-- Capacity 1 with the callback `f` registered, after `Add(A,1)`. -/
def sfA : Scenario := after 1 [Op.RegisterCB (some Callback.f), Op.Add Name.A (some 1)]

/-- The calls `Add(A,1)`, `Add(B,2)`, `Get(A)`, `Add(C,3)`. -/
def opsABAC : List (Op Callback Name (Option Nat)) :=
  [Op.Add Name.A (some 1), Op.Add Name.B (some 2), Op.Get Name.A, Op.Add Name.C (some 3)]

/-- Capacity 3 after `Add(A,1)`. -/
def sA3 : Scenario := after 3 [Op.Add Name.A (some 1)]

/-- Capacity 0 with the callback `f` registered, nothing added yet. -/
def s0f : Scenario := after 0 [Op.RegisterCB (some Callback.f)]

/-- Capacity 0 with the callback `f` registered, after `Add(A,1)`. -/
def s0fA : Scenario := after 0 [Op.RegisterCB (some Callback.f), Op.Add Name.A (some 1)]

/-- A zero-valued receiver on which `RegisterCB(f)` was called before `Init`. -/
def zf : Scenario := RegisterCB zero (some Callback.f)

/-- Capacity 2 holding `A` and `B`, with the mutex locked by a caller. -/
def sHeld : Scenario := { sAB with Mutex := true }

end cachehash

/-! ### The DMARC prefix pattern -/

namespace dmarc

/-- The pieces a pattern is made of: one character of a class `[...]`, or any number of
characters of a class `[...]*`.  A literal character is the class of that character. -/
inductive Item where
  | cls (cs : List Char)
  | star (cs : List Char)
  deriving DecidableEq, Repr

/-- The matches of `[cs]*` followed by the rest of the pattern, `k`. -/
def starLoop (cs : List Char) (k : List Char → Bool) : List Char → Bool
  | [] => k []
  | c :: s => k (c :: s) || (cs.contains c && starLoop cs k s)

/-- The pattern, anchored by `^` at the beginning of the text, matches a prefix of the
text. -/
def matchItems : List Item → List Char → Bool
  | [], _ => true
  | Item.cls _ :: _, [] => false
  | Item.cls cs :: rest, c :: s => cs.contains c && matchItems rest s
  | Item.star cs :: rest, s => starLoop cs (matchItems rest) s

/-- The class `[\x09\x20]`: tab and space. -/
def wsp : List Char := [Char.ofNat 0x09, Char.ofNat 0x20]

/-- The constant `dmarcPrefixRegexp` of the source, after the anchor `^`:
`[vV][\x09\x20]*=[\x09\x20]*DMARC1[\x09\x20]*;[\x09\x20]*`. -/
def dmarcPrefixRegexp : List Item :=
  [Item.cls ['v', 'V'], Item.star wsp, Item.cls ['='], Item.star wsp,
   Item.cls ['D'], Item.cls ['M'], Item.cls ['A'], Item.cls ['R'], Item.cls ['C'],
   Item.cls ['1'], Item.star wsp, Item.cls [';'], Item.star wsp]

/-- The prefix the specification describes: the tag `v=DMARC1;` with every letter
compared case-insensitively and horizontal whitespace allowed around `v`, `=` and `;`. -/
def specPrefix : List Item :=
  [Item.star wsp, Item.cls ['v', 'V'], Item.star wsp, Item.cls ['='], Item.star wsp,
   Item.cls ['d', 'D'], Item.cls ['m', 'M'], Item.cls ['a', 'A'], Item.cls ['r', 'R'],
   Item.cls ['c', 'C'], Item.cls ['1'], Item.star wsp, Item.cls [';'], Item.star wsp]

end dmarc

namespace cachehash

section lemmas

variable {F K V : Type} [DecidableEq K]

/-! ### Go maps -/

theorem mapGet_eq_none {h : List (K × Nat)} {k : K} :
    mapGet h k = none ↔ k ∉ h.map Prod.fst := by
  induction h with
  | nil => simp [mapGet]
  | cons p h ih =>
    obtain ⟨k', e⟩ := p
    by_cases hk : k' = k
    · simp [mapGet, hk]
    · simp [mapGet, hk, ih, Ne.symm hk]

theorem mapGet_mapDelete_self (h : List (K × Nat)) (k : K) :
    mapGet (mapDelete h k) k = none := by
  induction h with
  | nil => simp [mapDelete, mapGet]
  | cons p h ih =>
    obtain ⟨k', e⟩ := p
    by_cases hk : k' = k
    · simp [mapDelete, hk, ih]
    · simp [mapDelete, mapGet, hk, ih]

theorem mapGet_mapDelete_ne (h : List (K × Nat)) {k k' : K} (hne : k' ≠ k) :
    mapGet (mapDelete h k) k' = mapGet h k' := by
  induction h with
  | nil => simp [mapDelete, mapGet]
  | cons p h ih =>
    obtain ⟨k'', e⟩ := p
    by_cases hk : k'' = k
    · have : k'' ≠ k' := by rw [hk]; exact Ne.symm hne
      have hkk : ¬ k = k' := fun h' => hne h'.symm
      simp [mapDelete, mapGet, hk, ih, hkk]
    · simp [mapDelete, mapGet, hk, ih]

theorem mapDelete_of_none {h : List (K × Nat)} {k : K} (hk : mapGet h k = none) :
    mapDelete h k = h := by
  induction h with
  | nil => simp [mapDelete]
  | cons p h ih =>
    obtain ⟨k', e⟩ := p
    by_cases hk' : k' = k
    · simp [mapGet, hk'] at hk
    · simp [mapGet, hk'] at hk
      simp [mapDelete, hk', ih hk]

theorem keys_mapDelete_sublist (h : List (K × Nat)) (k : K) :
    ((mapDelete h k).map Prod.fst).Sublist (h.map Prod.fst) := by
  induction h with
  | nil => simp [mapDelete]
  | cons p h ih =>
    obtain ⟨k', e⟩ := p
    by_cases hk : k' = k
    · simp only [mapDelete, hk, if_true, List.map_cons]
      exact ih.cons _
    · simp only [mapDelete, hk, if_false, List.map_cons]
      exact ih.cons₂ _

theorem keys_mapDelete_nodup {h : List (K × Nat)} (k : K) (hn : (h.map Prod.fst).Nodup) :
    ((mapDelete h k).map Prod.fst).Nodup :=
  hn.sublist (keys_mapDelete_sublist h k)

theorem keys_mapSet_nodup {h : List (K × Nat)} (k : K) (e : Nat)
    (hn : (h.map Prod.fst).Nodup) : ((mapSet h k e).map Prod.fst).Nodup := by
  simp only [mapSet, List.map_cons, List.nodup_cons]
  exact ⟨mapGet_eq_none.mp (mapGet_mapDelete_self h k), keys_mapDelete_nodup k hn⟩

theorem length_mapDelete {h : List (K × Nat)} {k : K} {e : Nat}
    (hn : (h.map Prod.fst).Nodup) (hk : mapGet h k = some e) :
    (mapDelete h k).length + 1 = h.length := by
  induction h with
  | nil => simp [mapGet] at hk
  | cons p h ih =>
    obtain ⟨k', e'⟩ := p
    simp only [List.map_cons, List.nodup_cons] at hn
    by_cases hk' : k' = k
    · subst hk'
      have : mapGet h k' = none := mapGet_eq_none.mpr hn.1
      simp [mapDelete, mapDelete_of_none this]
    · simp only [mapGet, hk', if_false] at hk
      simp [mapDelete, hk', ih hn.2 hk]

theorem mapGet_mapSet_self (h : List (K × Nat)) (k : K) (e : Nat) :
    mapGet (mapSet h k e) k = some e := by
  simp [mapSet, mapGet]

theorem mapGet_mapSet_ne (h : List (K × Nat)) {k k' : K} (e : Nat) (hne : k' ≠ k) :
    mapGet (mapSet h k e) k' = mapGet h k' := by
  simp [mapSet, mapGet, Ne.symm hne, mapGet_mapDelete_ne h hne]

/-! ### The invariant is kept by the three mutations of the structure -/

theorem Inv.cell_eq {c : CacheHash F K V} (hc : Inv c) {e : Nat} (he : e ∈ c.l) :
    ∃ x, c.mem[e]? = some (Any.kv x) ∧ mapGet c.h x.Key = some e ∧
      cell c e = some (x.Key, x.Value) := by
  obtain ⟨x, hx, hg⟩ := hc.node e he
  exact ⟨x, hx, hg, by simp [cell, hx]⟩

theorem Inv.lt_mem {c : CacheHash F K V} (hc : Inv c) {e : Nat} (he : e ∈ c.l) :
    e < c.mem.length := by
  obtain ⟨x, hx, _⟩ := hc.node e he
  by_contra hlt
  rw [List.getElem?_eq_none (Nat.le_of_not_lt hlt)] at hx
  exact absurd hx (by simp)

theorem Inv.len_nonneg {c : CacheHash F K V} (hc : Inv c) : 0 ≤ c.len := by
  rw [hc.size]; exact Int.natCast_nonneg _

theorem Inv.l_ne_nil {c : CacheHash F K V} (hc : Inv c) (h0 : c.len ≠ 0) : c.l ≠ [] := by
  intro hl
  apply h0
  rw [hc.size, hl]; rfl

theorem Inv_Init (c0 : CacheHash F K V) (maxLen : Int) : Inv (Init c0 maxLen) where
  nodup := by simp [Init]
  node := by simp [Init]
  index := by simp [Init, mapGet]
  keys := by simp [Init]
  size := by simp [Init]
  hsize := by simp [Init]
  bound := by simp [Init]

/-- Removing the node `e` and the index entry of its key. -/
theorem Inv_remove {c : CacheHash F K V} (hc : Inv c) {e : Nat} {x : keyValue K V}
    (he : e ∈ c.l) (hx : c.mem[e]? = some (Any.kv x)) (calls : List (F × K × V)) :
    Inv { c with calls := calls, h := mapDelete c.h x.Key, l := Remove c.l e,
                 len := c.len - 1 } := by
  obtain ⟨x', hx', hg⟩ := hc.node e he
  have hxx : x' = x := by
    rw [hx] at hx'
    simpa using hx'.symm
  subst hxx
  have hmem : ∀ e', e' ∈ c.l.erase e ↔ e' ≠ e ∧ e' ∈ c.l := fun e' =>
    hc.nodup.mem_erase_iff
  have hlen : (c.l.erase e).length + 1 = c.l.length := by
    rw [List.length_erase_of_mem he]
    have : 0 < c.l.length := List.length_pos_of_mem he
    omega
  refine ⟨?_, ?_, ?_, ?_, ?_, ?_, ?_⟩
  · exact hc.nodup.erase e
  · intro e' he'
    obtain ⟨hne, hin⟩ := (hmem e').mp he'
    obtain ⟨y, hy, hgy⟩ := hc.node e' hin
    refine ⟨y, hy, ?_⟩
    have hk : y.Key ≠ x'.Key := by
      intro hk
      rw [hk, hg] at hgy
      exact hne (by simpa using hgy.symm)
    show mapGet (mapDelete c.h x'.Key) y.Key = some e'
    rw [mapGet_mapDelete_ne c.h hk]; exact hgy
  · intro k e' hk
    have hk' : mapGet (mapDelete c.h x'.Key) k = some e' := hk
    have hne : k ≠ x'.Key := by
      intro h'
      rw [h', mapGet_mapDelete_self] at hk'
      exact absurd hk' (by simp)
    rw [mapGet_mapDelete_ne c.h hne] at hk'
    obtain ⟨hin, y, hy, hyk⟩ := hc.index k e' hk'
    refine ⟨(hmem e').mpr ⟨?_, hin⟩, y, hy, hyk⟩
    intro hee
    rw [hee, hx] at hy
    have : x' = y := by simpa using hy
    exact hne (by rw [← hyk, this])
  · exact keys_mapDelete_nodup _ hc.keys
  · show c.len - 1 = ((c.l.erase e).length : Int)
    rw [hc.size]; omega
  · show (mapDelete c.h x'.Key).length = (c.l.erase e).length
    have := length_mapDelete hc.keys hg
    have := hc.hsize
    omega
  · show c.len - 1 ≤ max c.maxLen 1
    have := hc.bound
    omega

/-- Moving the node `e` to the front. -/
theorem Inv_move {c : CacheHash F K V} (hc : Inv c) (e : Nat) :
    Inv { c with l := MoveToFront c.l e } := by
  by_cases he : e ∈ c.l
  · have hperm : (e :: c.l.erase e).Perm c.l := (List.perm_cons_erase he).symm
    have hl : MoveToFront c.l e = e :: c.l.erase e := by simp [MoveToFront, he]
    rw [hl]
    refine ⟨hperm.nodup_iff.mpr hc.nodup, ?_, ?_, hc.keys, ?_, ?_, hc.bound⟩
    · intro e' he'
      exact hc.node e' (hperm.mem_iff.mp he')
    · intro k e' hk
      obtain ⟨hin, hrest⟩ := hc.index k e' hk
      exact ⟨hperm.mem_iff.mpr hin, hrest⟩
    · show c.len = ((e :: c.l.erase e).length : Int)
      rw [hperm.length_eq]; exact hc.size
    · show c.h.length = (e :: c.l.erase e).length
      rw [hperm.length_eq]; exact hc.hsize
  · have hl : MoveToFront c.l e = c.l := by simp [MoveToFront, he]
    rw [hl]; exact hc

/-- Pushing a new node for an absent key at the front. -/
theorem Inv_push {c : CacheHash F K V} (hc : Inv c) {k : K} (v : V)
    (hk : mapGet c.h k = none) (hb : c.len + 1 ≤ max c.maxLen 1) :
    Inv { c with mem := c.mem ++ [Any.kv { Key := k, Value := v }],
                 l := c.mem.length :: c.l, len := c.len + 1,
                 h := mapSet c.h k c.mem.length } := by
  have hold : ∀ e ∈ c.l, (c.mem ++ [Any.kv { Key := k, Value := v }])[e]? = c.mem[e]? :=
    fun e he => List.getElem?_append_left (hc.lt_mem he)
  have hnew : (c.mem ++ [Any.kv { Key := k, Value := v }])[c.mem.length]?
      = some (Any.kv { Key := k, Value := v }) := by simp
  have hfresh : c.mem.length ∉ c.l := fun h' => Nat.lt_irrefl _ (hc.lt_mem h')
  refine ⟨?_, ?_, ?_, ?_, ?_, ?_, hb⟩
  · exact List.nodup_cons.mpr ⟨hfresh, hc.nodup⟩
  · intro e he
    rcases List.mem_cons.mp he with rfl | he
    · exact ⟨_, hnew, mapGet_mapSet_self _ _ _⟩
    · obtain ⟨y, hy, hgy⟩ := hc.node e he
      refine ⟨y, (hold e he).trans hy, ?_⟩
      have hne : y.Key ≠ k := by
        intro h'
        rw [h', hk] at hgy
        exact absurd hgy (by simp)
      show mapGet (mapSet c.h k c.mem.length) y.Key = some e
      rw [mapGet_mapSet_ne c.h _ hne]; exact hgy
  · intro k' e hk'
    have hk'' : mapGet (mapSet c.h k c.mem.length) k' = some e := hk'
    by_cases hkk : k' = k
    · subst hkk
      rw [mapGet_mapSet_self] at hk''
      have : c.mem.length = e := by simpa using hk''
      subst this
      exact ⟨List.mem_cons_self _ _, _, hnew, rfl⟩
    · rw [mapGet_mapSet_ne c.h _ hkk] at hk''
      obtain ⟨hin, y, hy, hyk⟩ := hc.index k' e hk''
      exact ⟨List.mem_cons_of_mem _ hin, y, (hold e hin).trans hy, hyk⟩
  · exact keys_mapSet_nodup _ _ hc.keys
  · show c.len + 1 = ((c.mem.length :: c.l).length : Int)
    rw [hc.size]; simp
  · show (mapSet c.h k c.mem.length).length = (c.mem.length :: c.l).length
    simp [mapSet, mapDelete_of_none hk, hc.hsize]

/-! ### What each method computes on a state that satisfies the invariant -/

theorem elemKV_eq {c : CacheHash F K V} {e : Nat} {x : keyValue K V}
    (hx : c.mem[e]? = some (Any.kv x)) : elemKV c e = Except.ok x := by
  simp [elemKV, hx]

theorem Eject_empty {c : CacheHash F K V} (h0 : c.len = 0) : Eject c = Except.ok c := by
  simp [Eject, h0]

theorem Eject_nonempty {c : CacheHash F K V} (hc : Inv c) (h0 : c.len ≠ 0) :
    ∃ e x, c.l.getLast? = some e ∧ e ∈ c.l ∧ c.mem[e]? = some (Any.kv x) ∧
      mapGet c.h x.Key = some e ∧ Eject c = Except.ok (ejected c e x) := by
  have hne := hc.l_ne_nil h0
  have hlast : c.l.getLast? = some (c.l.getLast hne) := List.getLast?_eq_getLast _ hne
  have hin : c.l.getLast hne ∈ c.l := List.getLast_mem hne
  obtain ⟨x, hx, hg⟩ := hc.node _ hin
  refine ⟨_, x, hlast, hin, hx, hg, ?_⟩
  simp only [Eject, h0, if_false, Back, hlast, elemKV_eq hx]
  rfl

theorem Inv_ejected {c : CacheHash F K V} (hc : Inv c) {e : Nat} {x : keyValue K V}
    (he : e ∈ c.l) (hx : c.mem[e]? = some (Any.kv x)) : Inv (ejected c e x) :=
  Inv_remove hc he hx _

theorem Eject_inv {c c1 : CacheHash F K V} (hc : Inv c) (h : Eject c = Except.ok c1) :
    Inv c1 := by
  by_cases h0 : c.len = 0
  · rw [Eject_empty h0] at h
    cases h; exact hc
  · obtain ⟨e, x, _, he, hx, _, heq⟩ := Eject_nonempty hc h0
    rw [heq] at h
    cases h; exact Inv_ejected hc he hx

theorem Add_present {c : CacheHash F K V} (hc : Inv c) {k : K} {e : Nat} (v : V)
    (hk : mapGet c.h k = some e) :
    Add c k v = Except.ok (true, { c with l := MoveToFront c.l e }) := by
  obtain ⟨_, x, hx, _⟩ := hc.index k e hk
  simp [Add, hk, elemKV_eq hx]

theorem Add_absent_room {c : CacheHash F K V} {k : K} (v : V)
    (hk : mapGet c.h k = none) (hlt : c.len < c.maxLen) :
    Add c k v = Except.ok (false, pushed c k v) := by
  have : ¬ c.len ≥ c.maxLen := by omega
  simp only [Add, hk, this, if_false]
  rfl

theorem Add_absent_empty {c : CacheHash F K V} {k : K} (v : V)
    (hk : mapGet c.h k = none) (h0 : c.len = 0) :
    Add c k v = Except.ok (false, pushed c k v) := by
  by_cases hge : c.len ≥ c.maxLen
  · simp only [Add, hk, hge, if_true, Eject_empty h0]
    rfl
  · exact Add_absent_room v hk (by omega)

theorem Add_absent_full {c : CacheHash F K V} (hc : Inv c) {k : K} (v : V)
    (hk : mapGet c.h k = none) (hge : c.len ≥ c.maxLen) (h0 : c.len ≠ 0) :
    ∃ e x, c.l.getLast? = some e ∧ e ∈ c.l ∧ c.mem[e]? = some (Any.kv x) ∧
      mapGet c.h x.Key = some e ∧
      Add c k v = Except.ok (false, pushed (ejected c e x) k v) := by
  obtain ⟨e, x, hlast, he, hx, hg, heq⟩ := Eject_nonempty hc h0
  refine ⟨e, x, hlast, he, hx, hg, ?_⟩
  simp only [Add, hk, hge, if_true, heq]
  rfl

theorem mapGet_ejected_none {c : CacheHash F K V} {e : Nat} {x : keyValue K V} {k : K}
    (hk : mapGet c.h k = none) : mapGet (ejected c e x).h k = none := by
  show mapGet (mapDelete c.h x.Key) k = none
  by_cases hkk : k = x.Key
  · rw [hkk]; exact mapGet_mapDelete_self _ _
  · rw [mapGet_mapDelete_ne _ hkk]; exact hk

theorem Inv_pushed {c : CacheHash F K V} (hc : Inv c) {k : K} (v : V)
    (hk : mapGet c.h k = none) (hb : c.len + 1 ≤ max c.maxLen 1) : Inv (pushed c k v) :=
  Inv_push hc v hk hb

theorem Add_inv {c c1 : CacheHash F K V} (hc : Inv c) {k : K} {v : V} {r : Bool}
    (h : Add c k v = Except.ok (r, c1)) : Inv c1 := by
  cases hk : mapGet c.h k with
  | some e =>
    rw [Add_present hc v hk] at h
    cases h; exact Inv_move hc e
  | none =>
    by_cases hlt : c.len < c.maxLen
    · rw [Add_absent_room v hk hlt] at h
      cases h
      exact Inv_pushed hc v hk (by have := le_max_left c.maxLen 1; omega)
    · by_cases h0 : c.len = 0
      · rw [Add_absent_empty v hk h0] at h
        cases h
        exact Inv_pushed hc v hk (by have := le_max_right c.maxLen 1; omega)
      · obtain ⟨e, x, _, he, hx, _, heq⟩ := Add_absent_full hc v hk (by omega) h0
        rw [heq] at h
        cases h
        refine Inv_pushed (Inv_ejected hc he hx) v (mapGet_ejected_none hk) ?_
        have := hc.bound
        show c.len - 1 + 1 ≤ max c.maxLen 1
        omega

end lemmas

section lemmas2

variable {F K V : Type} [DecidableEq K] [Inhabited K] [Inhabited V]

theorem Get_present {c : CacheHash F K V} (hc : Inv c) {k : K} {e : Nat}
    (hk : mapGet c.h k = some e) :
    ∃ x, c.mem[e]? = some (Any.kv x) ∧ x.Key = k ∧ e ∈ c.l ∧
      Get c k = Except.ok ((x.Value, true), { c with l := MoveToFront c.l e }) := by
  obtain ⟨he, x, hx, hxk⟩ := hc.index k e hk
  refine ⟨x, hx, hxk, he, ?_⟩
  have : elemKV { c with l := MoveToFront c.l e } e = Except.ok x := elemKV_eq hx
  simp [Get, hk, this]

theorem Get_absent {c : CacheHash F K V} {k : K} (hk : mapGet c.h k = none) :
    Get c k = Except.ok ((default, false), c) := by
  simp [Get, hk]

theorem GetNoMove_present {c : CacheHash F K V} (hc : Inv c) {k : K} {e : Nat}
    (hk : mapGet c.h k = some e) :
    ∃ x, c.mem[e]? = some (Any.kv x) ∧ x.Key = k ∧
      GetNoMove c k = Except.ok (x.Value, true) := by
  obtain ⟨_, x, hx, hxk⟩ := hc.index k e hk
  exact ⟨x, hx, hxk, by simp [GetNoMove, hk, elemKV_eq hx]⟩

theorem GetNoMove_absent {c : CacheHash F K V} {k : K} (hk : mapGet c.h k = none) :
    GetNoMove c k = Except.ok (default, false) := by
  simp [GetNoMove, hk]

theorem Delete_present {c : CacheHash F K V} (hc : Inv c) {k : K} {e : Nat}
    (hk : mapGet c.h k = some e) :
    ∃ x, c.mem[e]? = some (Any.kv x) ∧ x.Key = k ∧ e ∈ c.l ∧
      Delete c k = Except.ok ((x.Value, true),
        { c with h := mapDelete c.h k, l := Remove c.l e, len := c.len - 1 }) := by
  obtain ⟨he, x, hx, hxk⟩ := hc.index k e hk
  exact ⟨x, hx, hxk, he, by simp [Delete, hk, elemKV_eq hx]⟩

theorem Delete_absent {c : CacheHash F K V} {k : K} (hk : mapGet c.h k = none) :
    Delete c k = Except.ok ((default, false), c) := by
  simp [Delete, hk]

theorem step_inv {c c1 : CacheHash F K V} (hc : Inv c) (op : Op F K V)
    (h : step c op = Except.ok c1) : Inv c1 := by
  cases op with
  | Eject => exact Eject_inv hc h
  | Add k v =>
    simp only [step] at h
    cases hr : Add c k v with
    | error f => rw [hr] at h; cases h
    | ok r =>
      rw [hr] at h
      cases h
      exact Add_inv hc hr
  | First =>
    simp only [step] at h
    cases hr : First c with
    | error f => rw [hr] at h; cases h
    | ok r => rw [hr] at h; cases h; exact hc
  | Last =>
    simp only [step] at h
    cases hr : Last c with
    | error f => rw [hr] at h; cases h
    | ok r => rw [hr] at h; cases h; exact hc
  | Get k =>
    simp only [step] at h
    cases hk : mapGet c.h k with
    | none =>
      rw [Get_absent hk] at h
      cases h; exact hc
    | some e =>
      obtain ⟨x, _, _, _, heq⟩ := Get_present hc hk
      rw [heq] at h
      cases h; exact Inv_move hc e
  | GetNoMove k =>
    simp only [step] at h
    cases hr : GetNoMove c k with
    | error f => rw [hr] at h; cases h
    | ok r => rw [hr] at h; cases h; exact hc
  | Has k => cases h; exact hc
  | Delete k =>
    simp only [step] at h
    cases hk : mapGet c.h k with
    | none =>
      rw [Delete_absent hk] at h
      cases h; exact hc
    | some e =>
      obtain ⟨x, hx, hxk, he, heq⟩ := Delete_present hc hk
      rw [heq] at h
      cases h
      have := Inv_remove hc he hx c.calls
      rw [hxk] at this
      exact this
  | Len => cases h; exact hc
  | RegisterCB f =>
    cases h
    exact ⟨hc.nodup, hc.node, hc.index, hc.keys, hc.size, hc.hsize, hc.bound⟩

/-- Every reachable state satisfies the representation invariant. -/
theorem Reachable.inv {c : CacheHash F K V} (h : Reachable c) : Inv c := by
  induction h with
  | init c0 maxLen => exact Inv_Init c0 maxLen
  | step op _ hs ih => exact step_inv ih op hs

/-! ### The recency order as a list of keys and values -/

theorem filterMap_length_of_some {α β : Type} (f : α → Option β) :
    ∀ l : List α, (∀ a ∈ l, ∃ b, f a = some b) → (l.filterMap f).length = l.length
  | [], _ => rfl
  | a :: t, h => by
    obtain ⟨b, hb⟩ := h a (List.mem_cons_self _ _)
    rw [List.filterMap_cons_some hb, List.length_cons, List.length_cons,
      filterMap_length_of_some f t (fun a' ha' => h a' (List.mem_cons_of_mem _ ha'))]

theorem filter_key_ne_self (k : K) :
    ∀ l : List (K × V), k ∉ l.map Prod.fst → l.filter (fun p => decide (p.1 ≠ k)) = l
  | [], _ => rfl
  | p :: t, h => by
    simp only [List.map_cons, List.mem_cons, not_or] at h
    have hp : p.1 ≠ k := fun h' => h.1 h'.symm
    rw [List.filter_cons_of_pos (by simpa using hp), filter_key_ne_self k t h.2]

theorem filterMap_erase_key (f : Nat → Option (K × V)) (k : K) (e : Nat)
    (hf : ∃ v, f e = some (k, v)) :
    ∀ l : List Nat, l.Nodup → (∀ e' ∈ l, ∀ p, f e' = some p → p.1 = k → e' = e) →
      (l.erase e).filterMap f = (l.filterMap f).filter (fun p => decide (p.1 ≠ k))
  | [], _, _ => rfl
  | a :: t, hn, hinj => by
    obtain ⟨hat, hnt⟩ := List.nodup_cons.mp hn
    by_cases hae : a = e
    · subst hae
      obtain ⟨v, hv⟩ := hf
      rw [List.erase_cons_head, List.filterMap_cons_some hv,
        List.filter_cons_of_neg (by simp)]
      symm
      apply filter_key_ne_self
      intro hk
      obtain ⟨p, hp, hpk⟩ := List.mem_map.mp hk
      obtain ⟨e', he', hfe'⟩ := List.mem_filterMap.mp hp
      have := hinj e' (List.mem_cons_of_mem _ he') p hfe' hpk
      exact hat (this ▸ he')
    · have ih := filterMap_erase_key f k e hf t hnt
        (fun e' he' => hinj e' (List.mem_cons_of_mem _ he'))
      rw [List.erase_cons_tail (by simpa using hae)]
      cases hfa : f a with
      | none => rw [List.filterMap_cons_none hfa, List.filterMap_cons_none hfa, ih]
      | some p =>
        have hp : p.1 ≠ k := fun h' => hae (hinj a (List.mem_cons_self _ _) p hfa h')
        rw [List.filterMap_cons_some hfa, List.filterMap_cons_some hfa,
          List.filter_cons_of_pos (by simpa using hp), ih]

theorem erase_getLast_eq_dropLast {l : List Nat} {e : Nat} (hn : l.Nodup)
    (hl : l.getLast? = some e) : l.erase e = l.dropLast := by
  have hne : l ≠ [] := by
    intro h'; rw [h'] at hl; simp at hl
  have he : l.getLast hne = e := by
    rw [List.getLast?_eq_getLast _ hne] at hl
    simpa using hl
  have hsplit : l = l.dropLast ++ [e] := by
    rw [← he]; exact (List.dropLast_append_getLast hne).symm
  have hnot : e ∉ l.dropLast := by
    intro hin
    rw [hsplit] at hn
    have := (List.nodup_append.mp hn).2.2
    exact this hin (List.mem_singleton_self e)
  conv_lhs => rw [hsplit]
  rw [List.erase_append_right _ hnot]
  simp

theorem Inv.cell_inj {c : CacheHash F K V} (hc : Inv c) {e : Nat} {k : K}
    (hk : mapGet c.h k = some e) :
    ∀ e' ∈ c.l, ∀ p, cell c e' = some p → p.1 = k → e' = e := by
  intro e' he' p hp hpk
  obtain ⟨y, _, hgy, hcy⟩ := hc.cell_eq he'
  rw [hcy] at hp
  have : y.Key = k := by
    have := Option.some.inj hp
    rw [← hpk, ← this]
  rw [this, hk] at hgy
  exact (Option.some.inj hgy).symm

theorem cell_of_mem {c : CacheHash F K V} {e : Nat} {x : keyValue K V}
    (hx : c.mem[e]? = some (Any.kv x)) : cell c e = some (x.Key, x.Value) := by
  simp [cell, hx]

theorem entries_length {c : CacheHash F K V} (hc : Inv c) :
    (entries c).length = c.l.length :=
  filterMap_length_of_some _ _ (fun e he => by
    obtain ⟨x, _, _, hx⟩ := hc.cell_eq he
    exact ⟨_, hx⟩)

theorem Len_eq {c : CacheHash F K V} (hc : Inv c) : Len c = ((entries c).length : Int) := by
  rw [entries_length hc]; exact hc.size

theorem mem_entries_iff {c : CacheHash F K V} (hc : Inv c) (k : K) (v : V) :
    (k, v) ∈ entries c ↔
      ∃ e, mapGet c.h k = some e ∧ c.mem[e]? = some (Any.kv { Key := k, Value := v }) := by
  constructor
  · intro h
    obtain ⟨e, he, hce⟩ := List.mem_filterMap.mp h
    obtain ⟨x, hx, hg, hcx⟩ := hc.cell_eq he
    rw [hcx] at hce
    have h1 : x.Key = k := congrArg Prod.fst (Option.some.inj hce)
    have h2 : x.Value = v := congrArg Prod.snd (Option.some.inj hce)
    refine ⟨e, h1 ▸ hg, ?_⟩
    rw [hx, ← h1, ← h2]
  · rintro ⟨e, hg, hx⟩
    obtain ⟨he, _⟩ := hc.index k e hg
    exact List.mem_filterMap.mpr ⟨e, he, cell_of_mem hx⟩

theorem Has_iff {c : CacheHash F K V} (hc : Inv c) (k : K) :
    Has c k = true ↔ k ∈ (entries c).map Prod.fst := by
  constructor
  · intro h
    obtain ⟨e, he⟩ := Option.isSome_iff_exists.mp h
    obtain ⟨_, x, hx, hxk⟩ := hc.index k e he
    refine List.mem_map.mpr ⟨(k, x.Value), (mem_entries_iff hc k x.Value).mpr ⟨e, he, ?_⟩, rfl⟩
    rw [hx, ← hxk]
  · intro h
    obtain ⟨p, hp, hpk⟩ := List.mem_map.mp h
    obtain ⟨k', v⟩ := p
    obtain ⟨e, he, _⟩ := (mem_entries_iff hc k' v).mp hp
    have : k' = k := hpk
    subst this
    simp [Has, he]

theorem Has_eq_false {c : CacheHash F K V} {k : K} :
    Has c k = false ↔ mapGet c.h k = none := by
  simp [Has]

theorem entries_keys_nodup {c : CacheHash F K V} (hc : Inv c) :
    ((entries c).map Prod.fst).Nodup := by
  have key : ∀ l : List Nat, l.Nodup → (∀ e ∈ l, e ∈ c.l) →
      ((l.filterMap (cell c)).map Prod.fst).Nodup := by
    intro l
    induction l with
    | nil => intro _ _; simp
    | cons a t ih =>
      intro hn hsub
      obtain ⟨hat, hnt⟩ := List.nodup_cons.mp hn
      obtain ⟨x, _, hg, hcx⟩ := hc.cell_eq (hsub a (List.mem_cons_self _ _))
      rw [List.filterMap_cons_some hcx, List.map_cons, List.nodup_cons]
      refine ⟨?_, ih hnt (fun e he => hsub e (List.mem_cons_of_mem _ he))⟩
      intro hk
      obtain ⟨p, hp, hpk⟩ := List.mem_map.mp hk
      obtain ⟨e', he', hfe'⟩ := List.mem_filterMap.mp hp
      have := hc.cell_inj hg e' (hsub e' (List.mem_cons_of_mem _ he')) p hfe' hpk
      exact hat (this ▸ he')
  exact key c.l hc.nodup (fun _ h => h)

theorem entries_ejected {c : CacheHash F K V} (hc : Inv c) {e : Nat} {x : keyValue K V}
    (hl : c.l.getLast? = some e) : entries (ejected c e x) = (entries c).dropLast := by
  have hne : c.l ≠ [] := by
    intro h'; rw [h'] at hl; simp at hl
  have he : c.l.getLast hne = e := by
    rw [List.getLast?_eq_getLast _ hne] at hl
    simpa using hl
  have hin : e ∈ c.l := he ▸ List.getLast_mem hne
  obtain ⟨y, _, _, hcy⟩ := hc.cell_eq hin
  show (Remove c.l e).filterMap (cell c) = (c.l.filterMap (cell c)).dropLast
  rw [Remove, erase_getLast_eq_dropLast hc.nodup hl]
  conv_rhs => rw [← List.dropLast_append_getLast hne, he, List.filterMap_append]
  simp [hcy]

theorem entries_pushed {c : CacheHash F K V} (hc : Inv c) (k : K) (v : V) :
    entries (pushed c k v) = (k, v) :: entries c := by
  have hnew : cell (pushed c k v) c.mem.length = some (k, v) := by
    simp [cell, pushed]
  have hold : ∀ e ∈ c.l, cell (pushed c k v) e = cell c e := by
    intro e he
    have : (c.mem ++ [Any.kv { Key := k, Value := v }])[e]? = c.mem[e]? :=
      List.getElem?_append_left (hc.lt_mem he)
    simp only [cell, pushed, this]
  show (c.mem.length :: c.l).filterMap (cell (pushed c k v)) = _
  rw [List.filterMap_cons_some hnew, entries, List.filterMap_congr hold]

theorem entries_remove {c : CacheHash F K V} (hc : Inv c) {k : K} {e : Nat}
    (hk : mapGet c.h k = some e) (h' : List (K × Nat)) (n : Int) :
    entries { c with h := h', l := Remove c.l e, len := n }
      = (entries c).filter (fun p => decide (p.1 ≠ k)) := by
  obtain ⟨_, x, hx, hxk⟩ := hc.index k e hk
  exact filterMap_erase_key (cell c) k e ⟨x.Value, by rw [cell_of_mem hx, hxk]⟩ c.l
    hc.nodup (hc.cell_inj hk)

theorem entries_move {c : CacheHash F K V} (hc : Inv c) {k : K} {e : Nat}
    {x : keyValue K V} (hk : mapGet c.h k = some e) (hx : c.mem[e]? = some (Any.kv x)) :
    entries { c with l := MoveToFront c.l e }
      = (k, x.Value) :: (entries c).filter (fun p => decide (p.1 ≠ k)) := by
  obtain ⟨he, y, hy, hyk⟩ := hc.index k e hk
  have hxy : y = x := by rw [hx] at hy; simpa using hy.symm
  subst hxy
  have hce : cell c e = some (k, y.Value) := by rw [cell_of_mem hx, hyk]
  show (MoveToFront c.l e).filterMap (cell c) = _
  rw [MoveToFront, if_pos he, List.filterMap_cons_some hce]
  congr 1
  exact filterMap_erase_key (cell c) k e ⟨y.Value, hce⟩ c.l hc.nodup (hc.cell_inj hk)

theorem Inv.l_eq_nil {c : CacheHash F K V} (hc : Inv c) (h0 : c.len = 0) : c.l = [] := by
  have := hc.size
  rw [h0] at this
  exact List.length_eq_zero.mp (by exact_mod_cast this.symm)

theorem First_eq {c : CacheHash F K V} (hc : Inv c) :
    First c = Except.ok ((entries c).head?.getD (default, default)) := by
  by_cases h0 : c.len = 0
  · simp [First, h0, entries, hc.l_eq_nil h0]
  · cases hl : c.l with
    | nil => exact absurd hl (hc.l_ne_nil h0)
    | cons a t =>
      obtain ⟨x, hx, _, hcx⟩ := hc.cell_eq (show a ∈ c.l by rw [hl]; exact List.mem_cons_self _ _)
      simp [First, h0, Front, hl, elemKV_eq hx, entries, List.filterMap_cons_some hcx]

theorem Last_eq {c : CacheHash F K V} (hc : Inv c) :
    Last c = Except.ok ((entries c).getLast?.getD (default, default)) := by
  by_cases h0 : c.len = 0
  · simp [Last, h0, entries, hc.l_eq_nil h0]
  · have hne := hc.l_ne_nil h0
    have hlast : c.l.getLast? = some (c.l.getLast hne) := List.getLast?_eq_getLast _ hne
    obtain ⟨x, hx, _, hcx⟩ := hc.cell_eq (List.getLast_mem hne)
    have hent : entries c = c.l.dropLast.filterMap (cell c) ++ [(x.Key, x.Value)] := by
      conv_lhs => rw [entries, ← List.dropLast_append_getLast hne, List.filterMap_append]
      simp [hcx]
    simp [Last, h0, Back, hlast, elemKV_eq hx, hent]

theorem step_ok {c : CacheHash F K V} (hc : Inv c) (op : Op F K V) :
    ∃ c1, step c op = Except.ok c1 := by
  cases op with
  | Eject =>
    by_cases h0 : c.len = 0
    · exact ⟨c, Eject_empty h0⟩
    · obtain ⟨e, x, _, _, _, _, heq⟩ := Eject_nonempty hc h0
      exact ⟨_, heq⟩
  | Add k v =>
    cases hk : mapGet c.h k with
    | some e => exact ⟨_, by simp only [step, Add_present hc v hk]; rfl⟩
    | none =>
      by_cases hlt : c.len < c.maxLen
      · exact ⟨_, by simp only [step, Add_absent_room v hk hlt]; rfl⟩
      · by_cases h0 : c.len = 0
        · exact ⟨_, by simp only [step, Add_absent_empty v hk h0]; rfl⟩
        · obtain ⟨e, x, _, _, _, _, heq⟩ := Add_absent_full hc v hk (by omega) h0
          exact ⟨_, by simp only [step, heq]; rfl⟩
  | First => exact ⟨c, by simp only [step, First_eq hc]; rfl⟩
  | Last => exact ⟨c, by simp only [step, Last_eq hc]; rfl⟩
  | Get k =>
    cases hk : mapGet c.h k with
    | none => exact ⟨c, by simp only [step, Get_absent hk]; rfl⟩
    | some e =>
      obtain ⟨x, _, _, _, heq⟩ := Get_present hc hk
      exact ⟨_, by simp only [step, heq]; rfl⟩
  | GetNoMove k =>
    cases hk : mapGet c.h k with
    | none => exact ⟨c, by simp only [step, GetNoMove_absent hk]; rfl⟩
    | some e =>
      obtain ⟨x, _, _, heq⟩ := GetNoMove_present hc hk
      exact ⟨c, by simp only [step, heq]; rfl⟩
  | Has k => exact ⟨c, rfl⟩
  | Delete k =>
    cases hk : mapGet c.h k with
    | none => exact ⟨c, by simp only [step, Delete_absent hk]; rfl⟩
    | some e =>
      obtain ⟨x, _, _, _, heq⟩ := Delete_present hc hk
      exact ⟨_, by simp only [step, heq]; rfl⟩
  | Len => exact ⟨c, rfl⟩
  | RegisterCB f => exact ⟨_, rfl⟩

theorem step_maxLen {c c1 : CacheHash F K V} (hc : Inv c) (op : Op F K V)
    (h : step c op = Except.ok c1) : c1.maxLen = c.maxLen := by
  cases op with
  | Eject =>
    by_cases h0 : c.len = 0
    · rw [step, Eject_empty h0] at h; cases h; rfl
    · obtain ⟨e, x, _, _, _, _, heq⟩ := Eject_nonempty hc h0
      rw [step, heq] at h; cases h; rfl
  | Add k v =>
    cases hk : mapGet c.h k with
    | some e => rw [step, Add_present hc v hk] at h; cases h; rfl
    | none =>
      by_cases hlt : c.len < c.maxLen
      · rw [step, Add_absent_room v hk hlt] at h; cases h; rfl
      · by_cases h0 : c.len = 0
        · rw [step, Add_absent_empty v hk h0] at h; cases h; rfl
        · obtain ⟨e, x, _, _, _, _, heq⟩ := Add_absent_full hc v hk (by omega) h0
          rw [step, heq] at h; cases h; rfl
  | First => rw [step, First_eq hc] at h; cases h; rfl
  | Last => rw [step, Last_eq hc] at h; cases h; rfl
  | Get k =>
    cases hk : mapGet c.h k with
    | none => rw [step, Get_absent hk] at h; cases h; rfl
    | some e =>
      obtain ⟨x, _, _, _, heq⟩ := Get_present hc hk
      rw [step, heq] at h; cases h; rfl
  | GetNoMove k =>
    cases hk : mapGet c.h k with
    | none => rw [step, GetNoMove_absent hk] at h; cases h; rfl
    | some e =>
      obtain ⟨x, _, _, heq⟩ := GetNoMove_present hc hk
      rw [step, heq] at h; cases h; rfl
  | Has k => cases h; rfl
  | Delete k =>
    cases hk : mapGet c.h k with
    | none => rw [step, Delete_absent hk] at h; cases h; rfl
    | some e =>
      obtain ⟨x, _, _, _, heq⟩ := Delete_present hc hk
      rw [step, heq] at h; cases h; rfl
  | Len => cases h; rfl
  | RegisterCB f => cases h; rfl

/-- A sequence of calls on a state satisfying the invariant never panics; it ends in a
reachable state with the same `maxLen`. -/
theorem run_ok {c : CacheHash F K V} (hc : Inv c) (hr : Reachable c) (ops : List (Op F K V)) :
    ∃ c1, run c ops = Except.ok c1 ∧ Reachable c1 ∧ c1.maxLen = c.maxLen := by
  induction ops generalizing c with
  | nil => exact ⟨c, rfl, hr, rfl⟩
  | cons op ops ih =>
    obtain ⟨c1, h1⟩ := step_ok hc op
    obtain ⟨c2, h2, hr2, hm2⟩ := ih (step_inv hc op h1) (Reachable.step op hr h1)
    refine ⟨c2, ?_, hr2, hm2.trans (step_maxLen hc op h1)⟩
    simp only [run, h1, h2]

theorem run_Init_ok (c0 : CacheHash F K V) (maxLen : Int) (ops : List (Op F K V)) :
    ∃ c, run (Init c0 maxLen) ops = Except.ok c ∧ Reachable c ∧ c.maxLen = maxLen :=
  run_ok (Inv_Init c0 maxLen) (Reachable.init c0 maxLen) ops

theorem Reachable_after (maxLen : Int) (ops : List (Op F K V)) :
    Reachable (after maxLen ops : CacheHash F K V) := by
  obtain ⟨c, h, hr, _⟩ := run_Init_ok (zero : CacheHash F K V) maxLen ops
  simp only [after, h]
  exact hr

theorem entries_getLast {c : CacheHash F K V} {e : Nat} {x : keyValue K V}
    (hl : c.l.getLast? = some e) (hx : c.mem[e]? = some (Any.kv x)) :
    (entries c).getLast? = some (x.Key, x.Value) := by
  have hne : c.l ≠ [] := by
    intro h'; rw [h'] at hl; simp at hl
  have he : c.l.getLast hne = e := by
    rw [List.getLast?_eq_getLast _ hne] at hl
    simpa using hl
  have hent : entries c = c.l.dropLast.filterMap (cell c) ++ [(x.Key, x.Value)] := by
    conv_lhs => rw [entries, ← List.dropLast_append_getLast hne, List.filterMap_append]
    simp [he, cell_of_mem hx]
  simp [hent]

/-! ### Last-use times -/

theorem Stamped.sub {ks ks1 : List K} {t : Nat} {s : K → Option Nat}
    (h : Stamped ks t s) (hs : ks1.Sublist ks) : Stamped ks1 (t + 1) s := by
  refine ⟨h.1.sublist hs, fun k hk => ?_⟩
  obtain ⟨tk, htk, hlt⟩ := h.2 k (hs.subset hk)
  exact ⟨tk, htk, by omega⟩

theorem Stamped.front {ks ks1 : List K} {t : Nat} {s : K → Option Nat} {k : K}
    (h : Stamped ks t s) (hs : ks1.Sublist ks) (hk : k ∉ ks1) :
    Stamped (k :: ks1) (t + 1) (fun k1 => if some k = some k1 then some t else s k1) := by
  have hself : (if some k = some k then some t else s k) = some t := by simp
  have hother : ∀ k1 ∈ ks1, (if some k = some k1 then some t else s k1) = s k1 := by
    intro k1 hk1
    have : k ≠ k1 := fun h' => hk (h' ▸ hk1)
    simp [this]
  refine ⟨List.pairwise_cons.mpr ⟨?_, ?_⟩, ?_⟩
  · intro k1 hk1
    obtain ⟨tk, htk, hlt⟩ := h.2 k1 (hs.subset hk1)
    exact ⟨t, tk, hself, (hother k1 hk1).trans htk, hlt⟩
  · refine List.Pairwise.imp_of_mem ?_ (h.1.sublist hs)
    intro a b ha hb hab
    obtain ⟨ta, tb, h1, h2, h3⟩ := hab
    exact ⟨ta, tb, (hother a ha).trans h1, (hother b hb).trans h2, h3⟩
  · intro k1 hk1
    rcases List.mem_cons.mp hk1 with rfl | hk1
    · exact ⟨t, hself, by omega⟩
    · obtain ⟨tk, htk, hlt⟩ := h.2 k1 (hs.subset hk1)
      exact ⟨tk, (hother k1 hk1).trans htk, by omega⟩

theorem keys_filter_sublist (k : K) (l : List (K × V)) :
    ((l.filter (fun p => decide (p.1 ≠ k))).map Prod.fst).Sublist (l.map Prod.fst) :=
  (List.filter_sublist l).map Prod.fst

theorem not_mem_keys_filter (k : K) (l : List (K × V)) :
    k ∉ (l.filter (fun p => decide (p.1 ≠ k))).map Prod.fst := by
  intro h
  obtain ⟨p, hp, hpk⟩ := List.mem_map.mp h
  have := (List.mem_filter.mp hp).2
  simp [hpk] at this

theorem not_mem_keys_of_absent {c : CacheHash F K V} (hc : Inv c) {k : K}
    (hk : mapGet c.h k = none) : k ∉ (entries c).map Prod.fst := by
  intro h
  have := (Has_iff hc k).mpr h
  rw [Has_eq_false.mpr hk] at this
  exact absurd this (by simp)

/-- What `Add` of an absent key does to the recency order. -/
theorem Add_absent_entries {c : CacheHash F K V} (hc : Inv c) {k : K} (v : V)
    (hk : mapGet c.h k = none) :
    ∃ c1, Add c k v = Except.ok (false, c1) ∧
      (entries c1 = (k, v) :: entries c ∨ entries c1 = (k, v) :: (entries c).dropLast) := by
  by_cases hlt : c.len < c.maxLen
  · exact ⟨_, Add_absent_room v hk hlt, Or.inl (entries_pushed hc k v)⟩
  · by_cases h0 : c.len = 0
    · exact ⟨_, Add_absent_empty v hk h0, Or.inl (entries_pushed hc k v)⟩
    · obtain ⟨e, x, hl, he, hx, _, heq⟩ := Add_absent_full hc v hk (by omega) h0
      refine ⟨_, heq, Or.inr ?_⟩
      rw [entries_pushed (Inv_ejected hc he hx), entries_ejected hc hl]

/-- A call either uses no key and leaves a subsequence of the keys, or uses one key and
puts it in front of a subsequence of the other keys. -/
theorem step_shape {c c1 : CacheHash F K V} (hc : Inv c) (op : Op F K V)
    (h : step c op = Except.ok c1) :
    (usedKey c op = none ∧ ((entries c1).map Prod.fst).Sublist ((entries c).map Prod.fst)) ∨
    (∃ k ks, usedKey c op = some k ∧ (entries c1).map Prod.fst = k :: ks ∧
      ks.Sublist ((entries c).map Prod.fst) ∧ k ∉ ks) := by
  cases op with
  | Eject =>
    left
    refine ⟨rfl, ?_⟩
    by_cases h0 : c.len = 0
    · rw [step, Eject_empty h0] at h; cases h; exact List.Sublist.refl _
    · obtain ⟨e, x, hl, _, _, _, heq⟩ := Eject_nonempty hc h0
      rw [step, heq] at h; cases h
      rw [entries_ejected hc hl]
      exact (List.dropLast_sublist _).map Prod.fst
  | Add k v =>
    right
    cases hk : mapGet c.h k with
    | some e =>
      obtain ⟨_, x, hx, _⟩ := hc.index k e hk
      rw [step, Add_present hc v hk] at h; cases h
      refine ⟨k, _, rfl, ?_, keys_filter_sublist k (entries c), not_mem_keys_filter k _⟩
      rw [entries_move hc hk hx]; rfl
    | none =>
      obtain ⟨c2, heq, hent⟩ := Add_absent_entries hc v hk
      rw [step, heq] at h; cases h
      have hnot := not_mem_keys_of_absent hc hk
      rcases hent with hent | hent
      · exact ⟨k, _, rfl, by rw [hent]; rfl, List.Sublist.refl _, hnot⟩
      · refine ⟨k, _, rfl, by rw [hent]; rfl, (List.dropLast_sublist _).map Prod.fst, ?_⟩
        exact fun h' => hnot (((List.dropLast_sublist _).map Prod.fst).subset h')
  | First => left; rw [step, First_eq hc] at h; cases h; exact ⟨rfl, List.Sublist.refl _⟩
  | Last => left; rw [step, Last_eq hc] at h; cases h; exact ⟨rfl, List.Sublist.refl _⟩
  | Get k =>
    cases hk : mapGet c.h k with
    | none =>
      left
      rw [step, Get_absent hk] at h; cases h
      exact ⟨by simp [usedKey, Has, hk], List.Sublist.refl _⟩
    | some e =>
      right
      obtain ⟨x, hx, _, _, heq⟩ := Get_present hc hk
      rw [step, heq] at h; cases h
      refine ⟨k, _, by simp [usedKey, Has, hk], ?_, keys_filter_sublist k (entries c),
        not_mem_keys_filter k _⟩
      rw [entries_move hc hk hx]; rfl
  | GetNoMove k =>
    left
    cases hk : mapGet c.h k with
    | none =>
      rw [step, GetNoMove_absent hk] at h; cases h; exact ⟨rfl, List.Sublist.refl _⟩
    | some e =>
      obtain ⟨x, _, _, heq⟩ := GetNoMove_present hc hk
      rw [step, heq] at h; cases h; exact ⟨rfl, List.Sublist.refl _⟩
  | Has k => left; cases h; exact ⟨rfl, List.Sublist.refl _⟩
  | Delete k =>
    left
    cases hk : mapGet c.h k with
    | none =>
      rw [step, Delete_absent hk] at h; cases h; exact ⟨rfl, List.Sublist.refl _⟩
    | some e =>
      obtain ⟨x, _, _, _, heq⟩ := Delete_present hc hk
      rw [step, heq] at h; cases h
      refine ⟨rfl, ?_⟩
      rw [entries_remove hc hk]
      exact keys_filter_sublist k (entries c)
  | Len => left; cases h; exact ⟨rfl, List.Sublist.refl _⟩
  | RegisterCB f => left; cases h; exact ⟨rfl, List.Sublist.refl _⟩

theorem step_stamped {c c1 : CacheHash F K V} (hc : Inv c) (op : Op F K V)
    (h : step c op = Except.ok c1) {t : Nat} {s : K → Option Nat}
    (hs : Stamped ((entries c).map Prod.fst) t s) :
    Stamped ((entries c1).map Prod.fst) (t + 1)
      (fun k => if usedKey c op = some k then some t else s k) := by
  rcases step_shape hc op h with ⟨hu, hsub⟩ | ⟨k, ks, hu, hks, hsub, hnot⟩
  · have : (fun k => if usedKey c op = some k then some t else s k) = s := by
      funext k; simp [hu]
    rw [this]
    exact hs.sub hsub
  · rw [hu, hks]
    exact hs.front hsub hnot

theorem run_stamped (ops : List (Op F K V)) :
    ∀ (c : CacheHash F K V) (t : Nat) (s : K → Option Nat), Inv c →
      Stamped ((entries c).map Prod.fst) t s →
      ∃ c1, run c ops = Except.ok c1 ∧ Inv c1 ∧
        Stamped ((entries c1).map Prod.fst) (t + ops.length) (lastUse c t s ops) := by
  induction ops with
  | nil => intro c t s hc hs; exact ⟨c, rfl, hc, hs⟩
  | cons op ops ih =>
    intro c t s hc hs
    obtain ⟨c1, h1⟩ := step_ok hc op
    obtain ⟨c2, h2, hc2, hs2⟩ := ih c1 (t + 1) _ (step_inv hc op h1) (step_stamped hc op h1 hs)
    refine ⟨c2, by simp only [run, h1, h2], hc2, ?_⟩
    have hl : t + (op :: ops).length = t + 1 + ops.length := by simp; omega
    rw [hl]
    simpa only [lastUse, h1] using hs2

/-! ### Sequences of `Add` within capacity -/

/-- A sequence of calls whose first call succeeds continues from the state it leaves. -/
theorem run_cons_ok {c c1 : CacheHash F K V} {op : Op F K V} (ops : List (Op F K V))
    (h : step c op = Except.ok c1) : run c (op :: ops) = run c1 ops := by
  simp only [run, h]

theorem keys_length_lt_card {c : CacheHash F K V} (hc : Inv c) (S : Finset K)
    (hS : ∀ k ∈ (entries c).map Prod.fst, k ∈ S) {k : K} (hk : k ∈ S)
    (hnot : k ∉ (entries c).map Prod.fst) : c.len < (S.card : Int) := by
  have hsub : ((entries c).map Prod.fst).toFinset ⊂ S := by
    refine (Finset.ssubset_iff_of_subset ?_).mpr ⟨k, hk, ?_⟩
    · intro a ha
      exact hS a (List.mem_toFinset.mp ha)
    · intro h'
      exact hnot (List.mem_toFinset.mp h')
  have hcard := Finset.card_lt_card hsub
  rw [List.toFinset_card_of_nodup (entries_keys_nodup hc), List.length_map,
    entries_length hc] at hcard
  rw [hc.size]
  exact_mod_cast hcard

theorem run_adds (S : Finset K) (kvs : List (K × V)) :
    ∀ c : CacheHash F K V, Inv c → (∀ k ∈ (entries c).map Prod.fst, k ∈ S) →
      (∀ p ∈ kvs, p.1 ∈ S) → (S.card : Int) ≤ c.maxLen →
      ∃ c1, run c (kvs.map fun p => Op.Add p.1 p.2) = Except.ok c1 ∧ Inv c1 ∧
        (∀ k, k ∈ (entries c1).map Prod.fst ↔
          k ∈ (entries c).map Prod.fst ∨ k ∈ kvs.map Prod.fst) ∧
        c1.calls = c.calls ∧ c1.maxLen = c.maxLen := by
  induction kvs with
  | nil =>
    intro c hc _ _ _
    exact ⟨c, rfl, hc, by simp, rfl, rfl⟩
  | cons p t ih =>
    intro c hc hS hkvs hcard
    obtain ⟨k, v⟩ := p
    have hkS : k ∈ S := hkvs (k, v) (List.mem_cons_self _ _)
    have htS : ∀ p ∈ t, p.1 ∈ S := fun p hp => hkvs p (List.mem_cons_of_mem _ hp)
    cases hk : mapGet c.h k with
    | some e =>
      obtain ⟨_, x, hx, _⟩ := hc.index k e hk
      have hadd := Add_present hc v hk
      have hstep : step c (Op.Add k v) = Except.ok { c with l := MoveToFront c.l e } := by
        simp only [step, hadd]; rfl
      have hin : k ∈ (entries c).map Prod.fst :=
        (Has_iff hc k).mp (by simp [Has, hk])
      have hkeys : ∀ a, a ∈ (entries { c with l := MoveToFront c.l e }).map Prod.fst ↔
          a ∈ (entries c).map Prod.fst := by
        intro a
        rw [← Has_iff (Inv_move hc e) a, ← Has_iff hc a]
        rfl
      obtain ⟨c2, hrun, hc2, hmem, hcalls, hmax⟩ := ih _ (Inv_move hc e)
        (fun a ha => hS a ((hkeys a).mp ha)) htS hcard
      refine ⟨c2, ?_, hc2, ?_, hcalls, hmax⟩
      · rw [List.map_cons, run_cons_ok _ hstep]; exact hrun
      · intro a
        rw [hmem a, hkeys a, List.map_cons, List.mem_cons]
        constructor
        · rintro (h' | h')
          · exact Or.inl h'
          · exact Or.inr (Or.inr h')
        · rintro (h' | h' | h')
          · exact Or.inl h'
          · exact Or.inl (h' ▸ hin)
          · exact Or.inr h'
    | none =>
      have hnot := not_mem_keys_of_absent hc hk
      have hlt : c.len < c.maxLen := lt_of_lt_of_le (keys_length_lt_card hc S hS hkS hnot) hcard
      have hadd := Add_absent_room v hk hlt
      have hstep : step c (Op.Add k v) = Except.ok (pushed c k v) := by
        simp only [step, hadd]; rfl
      have hc1 := Add_inv hc hadd
      have hent := entries_pushed hc k v
      obtain ⟨c2, hrun, hc2, hmem, hcalls, hmax⟩ := ih _ hc1
        (fun a ha => by
          rw [hent, List.map_cons, List.mem_cons] at ha
          rcases ha with rfl | ha
          · exact hkS
          · exact hS a ha) htS hcard
      refine ⟨c2, ?_, hc2, ?_, hcalls, hmax⟩
      · rw [List.map_cons, run_cons_ok _ hstep]; exact hrun
      · intro a
        rw [hmem a, hent]
        simp only [List.map_cons, List.mem_cons]
        constructor
        · rintro ((h' | h') | h')
          · exact Or.inr (Or.inl h')
          · exact Or.inl h'
          · exact Or.inr (Or.inr h')
        · rintro (h' | h' | h')
          · exact Or.inl (Or.inr h')
          · exact Or.inl (Or.inl h')
          · exact Or.inr h'

/-! ### The embedded mutex -/

theorem Eject_Mutex (c : CacheHash F K V) (b : Bool) :
    Eject { c with Mutex := b } = (Eject c).map fun c1 => { c1 with Mutex := b } := by
  by_cases h0 : c.len = 0
  · have h1 : Eject { c with Mutex := b } = Except.ok { c with Mutex := b } :=
      Eject_empty h0
    rw [h1, Eject_empty h0]; rfl
  · cases hb : Back c.l with
    | none => simp only [Eject, h0, if_false, hb]; rfl
    | some e =>
      have he : elemKV { c with Mutex := b } e = elemKV c e := rfl
      cases hx : elemKV c e with
      | error f => simp only [Eject, h0, if_false, hb, he, hx]; rfl
      | ok x => simp only [Eject, h0, if_false, hb, he, hx]; rfl

theorem Add_Mutex (c : CacheHash F K V) (b : Bool) (k : K) (v : V) :
    Add { c with Mutex := b } k v
      = (Add c k v).map fun r => (r.1, { r.2 with Mutex := b }) := by
  cases hk : mapGet c.h k with
  | some e =>
    have he : elemKV { c with Mutex := b } e = elemKV c e := rfl
    cases hx : elemKV c e with
    | error f => simp only [Add, hk, he, hx]; rfl
    | ok x => simp only [Add, hk, he, hx]; rfl
  | none =>
    by_cases hge : c.len ≥ c.maxLen
    · have hE := Eject_Mutex c b
      cases hx : Eject c with
      | error f =>
        rw [hx] at hE
        simp only [Add, hk, hge, if_true, hE, hx]; rfl
      | ok c1 =>
        rw [hx] at hE
        simp only [Add, hk, hge, if_true, hE, hx]; rfl
    · simp only [Add, hk, hge, if_false]; rfl

theorem step_Mutex (c : CacheHash F K V) (b : Bool) (op : Op F K V) :
    step { c with Mutex := b } op = (step c op).map fun c1 => { c1 with Mutex := b } := by
  cases op with
  | Eject => exact Eject_Mutex c b
  | Add k v =>
    simp only [step, Add_Mutex]
    cases Add c k v <;> rfl
  | First =>
    have h : First { c with Mutex := b } = First c := rfl
    simp only [step, h]
    cases First c <;> rfl
  | Last =>
    have h : Last { c with Mutex := b } = Last c := rfl
    simp only [step, h]
    cases Last c <;> rfl
  | Get k =>
    have h : Get { c with Mutex := b } k
        = (Get c k).map fun r => (r.1, { r.2 with Mutex := b }) := by
      cases hk : mapGet c.h k with
      | none => simp only [Get, hk]; rfl
      | some e =>
        have he : elemKV { c with Mutex := b, l := MoveToFront c.l e } e
            = elemKV { c with l := MoveToFront c.l e } e := rfl
        cases hx : elemKV { c with l := MoveToFront c.l e } e with
        | error f => simp only [Get, hk, he, hx]; rfl
        | ok x => simp only [Get, hk, he, hx]; rfl
    simp only [step, h]
    cases Get c k <;> rfl
  | GetNoMove k =>
    have h : GetNoMove { c with Mutex := b } k = GetNoMove c k := rfl
    simp only [step, h]
    cases GetNoMove c k <;> rfl
  | Has k => rfl
  | Delete k =>
    have h : Delete { c with Mutex := b } k
        = (Delete c k).map fun r => (r.1, { r.2 with Mutex := b }) := by
      cases hk : mapGet c.h k with
      | none => simp only [Delete, hk]; rfl
      | some e =>
        have he : elemKV { c with Mutex := b } e = elemKV c e := rfl
        cases hx : elemKV c e with
        | error f => simp only [Delete, hk, he, hx]; rfl
        | ok x => simp only [Delete, hk, he, hx]; rfl
    simp only [step, h]
    cases Delete c k <;> rfl
  | Len => rfl
  | RegisterCB f => rfl

theorem step_Mutex_eq {c c1 : CacheHash F K V} (op : Op F K V)
    (h : step c op = Except.ok c1) : c1.Mutex = c.Mutex := by
  have h1 := step_Mutex c c.Mutex op
  have h2 : ({ c with Mutex := c.Mutex } : CacheHash F K V) = c := rfl
  rw [h2, h] at h1
  have h3 : c1 = { c1 with Mutex := c.Mutex } := Except.ok.inj h1
  rw [h3]

end lemmas2

section claims

variable {F K V : Type} [DecidableEq K] [Inhabited K] [Inhabited V]

/-- Claim C1, evaluated where it fails: at capacity 2, after `Add(A, 1)`, the call
`Add(A, 2)` returns true and the following `Get(A)` returns `(1, true)`, the value stored
before, and not `(2, true)`: `Add` on an existing key writes the new value to a local copy
of the element's `keyValue` only. -/
theorem C1_add_existing_then_get_returns_old_value :
    ∃ c2 c3 : Scenario,
      Add (after 2 [Op.Add Name.A (some 1)] : Scenario) Name.A (some 2)
        = Except.ok (true, c2) ∧
      Get c2 Name.A = Except.ok ((some 1, true), c3) :=
  ⟨_, _, rfl, rfl⟩

/-- Claim C2: on a reachable state of a cache with `maxLen >= 1` and `Len() == maxLen`,
`Add(k, v)` for an absent key `k` returns false, removes exactly the entry at the back of
the recency order (the one `Last()` returned; `Has` of its key is false afterwards), puts
`(k, v)` at the front (`First() == (k, v)`), keeps the other entries in their order, and
leaves `Len() == maxLen`. -/
theorem C2_overflow_insertion (c : CacheHash F K V) (k : K) (v : V)
    (hr : Reachable c) (hm : 1 ≤ c.maxLen) (hfull : Len c = c.maxLen)
    (hk : Has c k = false) :
    ∃ c1 bk bv,
      Add c k v = Except.ok (false, c1) ∧
      Last c = Except.ok (bk, bv) ∧ (entries c).getLast? = some (bk, bv) ∧
      Has c bk = true ∧ Has c1 bk = false ∧
      entries c1 = (k, v) :: (entries c).dropLast ∧
      First c1 = Except.ok (k, v) ∧
      Len c1 = c.maxLen := by
  have hc := hr.inv
  have hk0 := Has_eq_false.mp hk
  have hlen : c.len = c.maxLen := hfull
  obtain ⟨e, x, hl, he, hx, hg, heq⟩ := Add_absent_full hc v hk0 (by omega) (by omega)
  have hc1 := Add_inv hc heq
  have hent : entries (pushed (ejected c e x) k v) = (k, v) :: (entries c).dropLast := by
    rw [entries_pushed (Inv_ejected hc he hx), entries_ejected hc hl]
  have hlast := entries_getLast hl hx
  have hne : x.Key ≠ k := by
    intro h'
    rw [h', hk0] at hg
    exact absurd hg (by simp)
  refine ⟨_, x.Key, x.Value, heq, ?_, hlast, ?_, ?_, hent, ?_, ?_⟩
  · rw [Last_eq hc, hlast]; rfl
  · simp [Has, hg]
  · show (mapGet (mapSet (mapDelete c.h x.Key) k _) x.Key).isSome = false
    rw [mapGet_mapSet_ne _ _ hne, mapGet_mapDelete_self]; rfl
  · rw [First_eq hc1, hent]; rfl
  · show c.len - 1 + 1 = c.maxLen
    omega

/-- The scenario of claim C2: capacity 2, `Add(A,1)`, `Add(B,2)`, `Add(C,3)` gives
`First() == (C,3)`, `Last() == (B,2)` and `A` absent. -/
theorem C2_overflow_insertion_witness :
    (Reachable sAB ∧ 1 ≤ sAB.maxLen ∧ Len sAB = sAB.maxLen ∧ Has sAB Name.C = false) ∧
    (∃ c1 bk bv,
      Add sAB Name.C (some 3) = Except.ok (false, c1) ∧
      Last sAB = Except.ok (bk, bv) ∧ (entries sAB).getLast? = some (bk, bv) ∧
      Has sAB bk = true ∧ Has c1 bk = false ∧
      entries c1 = (Name.C, some 3) :: (entries sAB).dropLast ∧
      First c1 = Except.ok (Name.C, some 3) ∧
      Len c1 = sAB.maxLen) ∧
    First sABC = Except.ok (Name.C, some 3) ∧ Last sABC = Except.ok (Name.B, some 2) ∧
    Has sABC Name.A = false ∧ Len sABC = 2 :=
  ⟨⟨Reachable_after _ _, by decide, by decide, by decide⟩,
   C2_overflow_insertion sAB Name.C (some 3) (Reachable_after _ _) (by decide) (by decide)
     (by decide),
   rfl, rfl, by decide, by decide⟩

/-- Claim C3: on a reachable state of a cache with `maxLen >= 1` and a registered callback
`f`, (i) `Add(k, v)` invokes `f` exactly once, with the key and value of the entry at the
back before the call, when `k` is absent and `Len() == maxLen`, and does not invoke it on
any other path; (ii) `Eject` on a non-empty cache invokes `f` exactly once with the key
and value of the back entry; (iii) `Delete` never invokes `f`. -/
theorem C3_callback_discipline (c : CacheHash F K V) (f : F) (k : K) (v : V)
    (hr : Reachable c) (hm : 1 ≤ c.maxLen) (hf : c.ejectCB = some f) :
    (Has c k = false → Len c = c.maxLen →
      ∃ c1 bk bv, Add c k v = Except.ok (false, c1) ∧ Last c = Except.ok (bk, bv) ∧
        (entries c).getLast? = some (bk, bv) ∧ c1.calls = c.calls ++ [(f, bk, bv)]) ∧
    (¬ (Has c k = false ∧ Len c = c.maxLen) →
      ∃ r c1, Add c k v = Except.ok (r, c1) ∧ c1.calls = c.calls) ∧
    (Len c ≠ 0 →
      ∃ c1 bk bv, Eject c = Except.ok c1 ∧ Last c = Except.ok (bk, bv) ∧
        (entries c).getLast? = some (bk, bv) ∧ c1.calls = c.calls ++ [(f, bk, bv)]) ∧
    (∃ r c1, Delete c k = Except.ok (r, c1) ∧ c1.calls = c.calls) := by
  have hc := hr.inv
  have hcalls : ∀ e x, (ejected c e x).calls = c.calls ++ [(f, x.Key, x.Value)] := by
    intro e x
    simp only [ejected, hf]
  refine ⟨?_, ?_, ?_, ?_⟩
  · intro hk hfull
    have hk0 := Has_eq_false.mp hk
    have hlen : c.len = c.maxLen := hfull
    obtain ⟨e, x, hl, _, hx, _, heq⟩ := Add_absent_full hc v hk0 (by omega) (by omega)
    have hlast := entries_getLast hl hx
    refine ⟨_, x.Key, x.Value, heq, ?_, hlast, hcalls e x⟩
    rw [Last_eq hc, hlast]; rfl
  · intro hnot
    cases hk : mapGet c.h k with
    | some e => exact ⟨_, _, Add_present hc v hk, rfl⟩
    | none =>
      have hne : Len c ≠ c.maxLen := fun h' => hnot ⟨Has_eq_false.mpr hk, h'⟩
      have hb := hc.bound
      have hlt : c.len < c.maxLen := by
        have : c.len ≠ c.maxLen := hne
        rw [max_eq_left hm] at hb
        omega
      exact ⟨_, _, Add_absent_room v hk hlt, rfl⟩
  · intro h0
    obtain ⟨e, x, hl, _, hx, _, heq⟩ := Eject_nonempty hc h0
    have hlast := entries_getLast hl hx
    refine ⟨_, x.Key, x.Value, heq, ?_, hlast, hcalls e x⟩
    rw [Last_eq hc, hlast]; rfl
  · cases hk : mapGet c.h k with
    | none => exact ⟨_, _, Delete_absent hk, rfl⟩
    | some e =>
      obtain ⟨x, _, _, _, heq⟩ := Delete_present hc hk
      exact ⟨_, _, heq, rfl⟩

/-- The scenario of claim C3: `RegisterCB(f)`, capacity 1, `Add(A,1)`, `Add(B,2)` logs
exactly one invocation, `f(A, 1)`. -/
theorem C3_callback_discipline_witness :
    (Reachable sfA ∧ 1 ≤ sfA.maxLen ∧ sfA.ejectCB = some Callback.f) ∧
    ((Has sfA Name.B = false → Len sfA = sfA.maxLen →
      ∃ c1 bk bv, Add sfA Name.B (some 2) = Except.ok (false, c1) ∧
        Last sfA = Except.ok (bk, bv) ∧
        (entries sfA).getLast? = some (bk, bv) ∧
        c1.calls = sfA.calls ++ [(Callback.f, bk, bv)]) ∧
    (¬ (Has sfA Name.B = false ∧ Len sfA = sfA.maxLen) →
      ∃ r c1, Add sfA Name.B (some 2) = Except.ok (r, c1) ∧ c1.calls = sfA.calls) ∧
    (Len sfA ≠ 0 →
      ∃ c1 bk bv, Eject sfA = Except.ok c1 ∧ Last sfA = Except.ok (bk, bv) ∧
        (entries sfA).getLast? = some (bk, bv) ∧
        c1.calls = sfA.calls ++ [(Callback.f, bk, bv)]) ∧
    (∃ r c1, Delete sfA Name.B = Except.ok (r, c1) ∧ c1.calls = sfA.calls)) ∧
    Has sfA Name.B = false ∧ Len sfA = sfA.maxLen ∧
    (after 1 [Op.RegisterCB (some Callback.f), Op.Add Name.A (some 1),
      Op.Add Name.B (some 2)] : Scenario).calls = [(Callback.f, Name.A, some 1)] :=
  ⟨⟨Reachable_after _ _, by decide, by decide⟩,
   C3_callback_discipline sfA Callback.f Name.B (some 2) (Reachable_after _ _) (by decide)
     (by decide),
   by decide, by decide, by decide⟩

/-- Claim C4: for every `maxLen >= 1` and every finite sequence of calls applied after
`Init(maxLen)`, no call panics and `0 <= Len() <= maxLen` holds after every call (after
every prefix of the sequence). -/
theorem C4_capacity_bound (c0 : CacheHash F K V) (maxLen : Int) (ops : List (Op F K V))
    (hm : 1 ≤ maxLen) :
    ∀ n, ∃ c, run (Init c0 maxLen) (ops.take n) = Except.ok c ∧
      0 ≤ Len c ∧ Len c ≤ maxLen := by
  intro n
  obtain ⟨c, h, hr, hmax⟩ := run_Init_ok c0 maxLen (ops.take n)
  have hc := hr.inv
  refine ⟨c, h, hc.len_nonneg, ?_⟩
  have hb := hc.bound
  rw [hmax, max_eq_left hm] at hb
  exact hb

/-- Claim C4 at capacity 2 with three distinct keys added. -/
theorem C4_capacity_bound_witness :
    (1 : Int) ≤ 2 ∧
    ∀ n, ∃ c : Scenario,
      run (Init zero 2)
        ([Op.Add Name.A (some 1), Op.Add Name.B (some 2), Op.Add Name.C (some 3)].take n)
        = Except.ok c ∧
      0 ≤ Len c ∧ Len c ≤ 2 :=
  ⟨by decide, C4_capacity_bound zero 2 _ (by decide)⟩

/-- Claim C5: after `Init` and any sequence of calls (none of which panics), the recency
order read from front to back lists the present keys in strictly decreasing order of the
time of their most recent `Add` or successful `Get`; every present key has such a time;
and the key removed by the `Add` of an absent key on a cache with `Len() >= maxLen` was
last used strictly before every other present key. -/
theorem C5_recency_order_is_last_use_order (c0 : CacheHash F K V) (maxLen : Int)
    (ops : List (Op F K V)) :
    ∃ c, run (Init c0 maxLen) ops = Except.ok c ∧
      ((entries c).map Prod.fst).Pairwise
        (UsedAfter (lastUse (Init c0 maxLen) 0 (fun _ => none) ops)) ∧
      (∀ k, Has c k = true →
        ∃ t, lastUse (Init c0 maxLen) 0 (fun _ => none) ops k = some t ∧ t < ops.length) ∧
      (∀ k v, Has c k = false → c.len ≥ c.maxLen →
        ∃ c1, Add c k v = Except.ok (false, c1) ∧
          ∀ k1, Has c k1 = true → Has c1 k1 = false →
            ∀ k2, Has c k2 = true → k2 ≠ k1 →
              UsedAfter (lastUse (Init c0 maxLen) 0 (fun _ => none) ops) k2 k1) := by
  have h0 : Stamped ((entries (Init c0 maxLen)).map Prod.fst) 0 (fun _ => none) := by
    refine ⟨?_, ?_⟩ <;> simp [entries, Init]
  obtain ⟨c, hrun, hc, hpair, hall⟩ := run_stamped ops (Init c0 maxLen) 0 _ (Inv_Init _ _) h0
  refine ⟨c, hrun, hpair, ?_, ?_⟩
  · intro k hk
    obtain ⟨t, ht, hlt⟩ := hall k ((Has_iff hc k).mp hk)
    exact ⟨t, ht, by omega⟩
  · intro k v hk _
    obtain ⟨c1, heq, hent⟩ := Add_absent_entries hc v (Has_eq_false.mp hk)
    have hc1 := Add_inv hc heq
    refine ⟨c1, heq, ?_⟩
    intro k1 hk1 hk1' k2 hk2 hne
    have hm1 := (Has_iff hc k1).mp hk1
    have hm2 := (Has_iff hc k2).mp hk2
    have hn1 : k1 ∉ (entries c1).map Prod.fst := by
      intro h'
      have := (Has_iff hc1 k1).mpr h'
      rw [hk1'] at this
      exact absurd this (by simp)
    rcases hent with hent | hent
    · rw [hent] at hn1
      exact absurd (List.mem_cons_of_mem _ hm1) hn1
    · rw [hent, List.map_cons, List.map_dropLast] at hn1
      have hn1' : k1 ∉ ((entries c).map Prod.fst).dropLast :=
        fun h' => hn1 (List.mem_cons_of_mem _ h')
      have hne' : (entries c).map Prod.fst ≠ [] := List.ne_nil_of_mem hm1
      have hsplit := List.dropLast_append_getLast hne'
      have hlast : ((entries c).map Prod.fst).getLast hne' = k1 := by
        rw [← hsplit] at hm1
        rcases List.mem_append.mp hm1 with h' | h'
        · exact absurd h' hn1'
        · exact (List.mem_singleton.mp h').symm
      rw [← hsplit, hlast] at hm2 hpair
      rcases List.mem_append.mp hm2 with h' | h'
      · exact (List.pairwise_append.mp hpair).2.2 k2 h' k1 (List.mem_singleton_self _)
      · exact absurd (List.mem_singleton.mp h') hne

/-- The scenario of claim C5: capacity 2, `Add(A,1)`, `Add(B,2)`, `Get(A)`, `Add(C,3)`
leaves `A` and `C` present and `B` absent; the recency order is `C`, `A`, last used at
the times 3 and 2. -/
theorem C5_recency_order_is_last_use_order_witness :
    (∃ c : Scenario, run (Init zero 2) opsABAC = Except.ok c ∧
      ((entries c).map Prod.fst).Pairwise
        (UsedAfter (lastUse (Init (zero : Scenario) 2) 0 (fun _ => none) opsABAC)) ∧
      (∀ k, Has c k = true →
        ∃ t, lastUse (Init (zero : Scenario) 2) 0 (fun _ => none) opsABAC k = some t ∧
          t < opsABAC.length) ∧
      (∀ k v, Has c k = false → c.len ≥ c.maxLen →
        ∃ c1, Add c k v = Except.ok (false, c1) ∧
          ∀ k1, Has c k1 = true → Has c1 k1 = false →
            ∀ k2, Has c k2 = true → k2 ≠ k1 →
              UsedAfter (lastUse (Init (zero : Scenario) 2) 0 (fun _ => none) opsABAC)
                k2 k1)) ∧
    Has (after 2 opsABAC : Scenario) Name.A = true ∧
    Has (after 2 opsABAC : Scenario) Name.C = true ∧
    Has (after 2 opsABAC : Scenario) Name.B = false ∧
    entries (after 2 opsABAC : Scenario) = [(Name.C, some 3), (Name.A, some 1)] ∧
    lastUse (Init (zero : Scenario) 2) 0 (fun _ => none) opsABAC Name.C = some 3 ∧
    lastUse (Init (zero : Scenario) 2) 0 (fun _ => none) opsABAC Name.A = some 2 :=
  ⟨C5_recency_order_is_last_use_order zero 2 opsABAC,
   by decide, by decide, by decide, by decide, by decide, by decide⟩

/-- Claim C6: on a reachable state, `Add(k, v)` for a present key `k` returns true, makes
`k` the key of the front entry (`First()` returns `k`), leaves `Len()` and the set of
present keys unchanged, keeps all other entries in their previous relative order, and
evicts nothing (no entry removed, no callback invoked), also at capacity. -/
theorem C6_add_existing_key (c : CacheHash F K V) (k : K) (v : V)
    (hr : Reachable c) (hk : Has c k = true) :
    ∃ c1 w,
      Add c k v = Except.ok (true, c1) ∧
      First c1 = Except.ok (k, w) ∧
      Len c1 = Len c ∧
      (∀ k1, Has c1 k1 = Has c k1) ∧
      entries c1 = (k, w) :: (entries c).filter (fun p => decide (p.1 ≠ k)) ∧
      (entries c1).length = (entries c).length ∧
      c1.calls = c.calls := by
  have hc := hr.inv
  obtain ⟨e, he⟩ := Option.isSome_iff_exists.mp hk
  obtain ⟨_, x, hx, _⟩ := hc.index k e he
  have hc1 : Inv { c with l := MoveToFront c.l e } := Inv_move hc e
  have hent := entries_move hc he hx
  refine ⟨_, x.Value, Add_present hc v he, ?_, rfl, fun _ => rfl, hent, ?_, rfl⟩
  · rw [First_eq hc1, hent]; rfl
  · rw [entries_length hc1, entries_length hc]
    have := hc1.size
    have := hc.size
    have h3 : ({ c with l := MoveToFront c.l e } : CacheHash F K V).len = c.len := rfl
    omega

/-- Claim C6 at capacity 2 holding `A` and `B`: `Add(A, 5)` on the full cache. -/
theorem C6_add_existing_key_witness :
    (Reachable sAB ∧ Has sAB Name.A = true ∧ Len sAB = sAB.maxLen) ∧
    ∃ c1 w,
      Add sAB Name.A (some 5) = Except.ok (true, c1) ∧
      First c1 = Except.ok (Name.A, w) ∧
      Len c1 = Len sAB ∧
      (∀ k1, Has c1 k1 = Has sAB k1) ∧
      entries c1 = (Name.A, w) :: (entries sAB).filter (fun p => decide (p.1 ≠ Name.A)) ∧
      (entries c1).length = (entries sAB).length ∧
      c1.calls = sAB.calls :=
  ⟨⟨Reachable_after _ _, by decide, by decide⟩,
   C6_add_existing_key sAB Name.A (some 5) (Reachable_after _ _) (by decide)⟩

/-- Claim C7: on a reachable state with `Len() < maxLen`, `Add(k, v)` for an absent key
`k` returns false, puts `(k, v)` at the front (`First() == (k, v)`), increases `Len()` by
exactly one, removes no entry, keeps the previous entries in their order behind `k`, and
invokes no callback. -/
theorem C7_add_new_key_below_capacity (c : CacheHash F K V) (k : K) (v : V)
    (hr : Reachable c) (hlt : Len c < c.maxLen) (hk : Has c k = false) :
    ∃ c1,
      Add c k v = Except.ok (false, c1) ∧
      First c1 = Except.ok (k, v) ∧
      Len c1 = Len c + 1 ∧
      entries c1 = (k, v) :: entries c ∧
      c1.calls = c.calls := by
  have hc := hr.inv
  have hk0 := Has_eq_false.mp hk
  have heq := Add_absent_room v hk0 hlt
  have hc1 := Add_inv hc heq
  have hent := entries_pushed hc k v
  refine ⟨_, heq, ?_, rfl, hent, rfl⟩
  rw [First_eq hc1, hent]; rfl

/-- Claim C7 at capacity 3 holding `A`: `Add(B, 2)`. -/
theorem C7_add_new_key_below_capacity_witness :
    (Reachable sA3 ∧ Len sA3 < sA3.maxLen ∧ Has sA3 Name.B = false) ∧
    ∃ c1,
      Add sA3 Name.B (some 2) = Except.ok (false, c1) ∧
      First c1 = Except.ok (Name.B, some 2) ∧
      Len c1 = Len sA3 + 1 ∧
      entries c1 = (Name.B, some 2) :: entries sA3 ∧
      c1.calls = sA3.calls :=
  ⟨⟨Reachable_after _ _, by decide, by decide⟩,
   C7_add_new_key_below_capacity sA3 Name.B (some 2) (Reachable_after _ _) (by decide)
     (by decide)⟩

/-- Claim C8: on a reachable state, if `k` is present `Get(k)` returns the value stored for
`k` and true, moves the entry of `k` to the front, keeps the other entries in their
previous relative order and leaves `Len()` unchanged; if `k` is absent `Get(k)` returns
`(nil, false)` and leaves the whole state unchanged. -/
theorem C8_get (c : CacheHash F K V) (k : K) (hr : Reachable c) :
    (Has c k = true →
      ∃ w c1, (k, w) ∈ entries c ∧ Get c k = Except.ok ((w, true), c1) ∧
        entries c1 = (k, w) :: (entries c).filter (fun p => decide (p.1 ≠ k)) ∧
        Len c1 = Len c) ∧
    (Has c k = false → Get c k = Except.ok ((default, false), c)) := by
  have hc := hr.inv
  constructor
  · intro hk
    obtain ⟨e, he⟩ := Option.isSome_iff_exists.mp hk
    obtain ⟨x, hx, hxk, _, heq⟩ := Get_present hc he
    refine ⟨x.Value, _, ?_, heq, entries_move hc he hx, rfl⟩
    refine (mem_entries_iff hc k x.Value).mpr ⟨e, he, ?_⟩
    rw [hx, ← hxk]
  · intro hk
    exact Get_absent (Has_eq_false.mp hk)

/-- Claim C8 at capacity 2 holding `A` and `B`, for the present key `A`. -/
theorem C8_get_witness :
    Reachable sAB ∧ Has sAB Name.A = true ∧
    (Has sAB Name.A = true →
      ∃ w c1, (Name.A, w) ∈ entries sAB ∧ Get sAB Name.A = Except.ok ((w, true), c1) ∧
        entries c1 = (Name.A, w) :: (entries sAB).filter (fun p => decide (p.1 ≠ Name.A)) ∧
        Len c1 = Len sAB) ∧
    (Has sAB Name.A = false → Get sAB Name.A = Except.ok ((default, false), sAB)) :=
  ⟨Reachable_after _ _, by decide, C8_get sAB Name.A (Reachable_after _ _)⟩

/-- Claim C9: on a reachable state, `GetNoMove(k)` returns the pair that `Get(k)` returns,
`Has(k)` is the found flag of that pair, and the calls of `GetNoMove` and `Has` leave the
whole state unchanged. -/
theorem C9_observation_without_promotion (c : CacheHash F K V) (k : K) (hr : Reachable c) :
    ∃ w found c1,
      Get c k = Except.ok ((w, found), c1) ∧
      GetNoMove c k = Except.ok (w, found) ∧
      Has c k = found ∧
      step c (Op.GetNoMove k) = Except.ok c ∧
      step c (Op.Has k) = Except.ok c := by
  have hc := hr.inv
  cases hk : mapGet c.h k with
  | none =>
    refine ⟨default, false, c, Get_absent hk, GetNoMove_absent hk, Has_eq_false.mpr hk, ?_,
      rfl⟩
    simp only [step, GetNoMove_absent hk]; rfl
  | some e =>
    obtain ⟨x, hx, _, _, heq⟩ := Get_present hc hk
    obtain ⟨y, hy, _, heq2⟩ := GetNoMove_present hc hk
    have hxy : y = x := by rw [hx] at hy; simpa using hy.symm
    subst hxy
    refine ⟨y.Value, true, _, heq, heq2, by simp [Has, hk], ?_, rfl⟩
    simp only [step, heq2]; rfl

/-- Claim C9 at capacity 2 holding `A` and `B`, for the back key `A`. -/
theorem C9_observation_without_promotion_witness :
    Reachable sAB ∧
    ∃ w found c1,
      Get sAB Name.A = Except.ok ((w, found), c1) ∧
      GetNoMove sAB Name.A = Except.ok (w, found) ∧
      Has sAB Name.A = found ∧
      step sAB (Op.GetNoMove Name.A) = Except.ok sAB ∧
      step sAB (Op.Has Name.A) = Except.ok sAB :=
  ⟨Reachable_after _ _, C9_observation_without_promotion sAB Name.A (Reachable_after _ _)⟩

/-- Claim C10: on a reachable state, if `k` is present `Delete(k)` returns the value
stored for `k` and true, after which `Has(k)` is false, `Len()` is one smaller and all
other entries keep their keys, values and relative order; if `k` is absent, in particular
on an empty cache, `Delete(k)` returns `(nil, false)` and leaves the whole state
unchanged. -/
theorem C10_delete (c : CacheHash F K V) (k : K) (hr : Reachable c) :
    (Has c k = true →
      ∃ w c1, (k, w) ∈ entries c ∧ Delete c k = Except.ok ((w, true), c1) ∧
        Has c1 k = false ∧ Len c1 = Len c - 1 ∧
        entries c1 = (entries c).filter (fun p => decide (p.1 ≠ k))) ∧
    (Has c k = false → Delete c k = Except.ok ((default, false), c)) ∧
    (Len c = 0 → Delete c k = Except.ok ((default, false), c)) := by
  have hc := hr.inv
  refine ⟨?_, ?_, ?_⟩
  · intro hk
    obtain ⟨e, he⟩ := Option.isSome_iff_exists.mp hk
    obtain ⟨x, hx, hxk, _, heq⟩ := Delete_present hc he
    refine ⟨x.Value, _, ?_, heq, ?_, rfl, entries_remove hc he _ _⟩
    · refine (mem_entries_iff hc k x.Value).mpr ⟨e, he, ?_⟩
      rw [hx, ← hxk]
    · show (mapGet (mapDelete c.h k) k).isSome = false
      rw [mapGet_mapDelete_self]; rfl
  · intro hk
    exact Delete_absent (Has_eq_false.mp hk)
  · intro h0
    apply Delete_absent
    cases hk : mapGet c.h k with
    | none => rfl
    | some e =>
      obtain ⟨he, _⟩ := hc.index k e hk
      rw [hc.l_eq_nil h0] at he
      exact absurd he (by simp)

/-- Claim C10 at capacity 2 holding `A` and `B`, for the present key `A`, and the scenario
`Delete(A)` on the empty cache, which returns `(nil, false)` and invokes no callback. -/
theorem C10_delete_witness :
    Reachable sAB ∧ Has sAB Name.A = true ∧
    ((Has sAB Name.A = true →
      ∃ w c1, (Name.A, w) ∈ entries sAB ∧ Delete sAB Name.A = Except.ok ((w, true), c1) ∧
        Has c1 Name.A = false ∧ Len c1 = Len sAB - 1 ∧
        entries c1 = (entries sAB).filter (fun p => decide (p.1 ≠ Name.A))) ∧
    (Has sAB Name.A = false → Delete sAB Name.A = Except.ok ((default, false), sAB)) ∧
    (Len sAB = 0 → Delete sAB Name.A = Except.ok ((default, false), sAB))) ∧
    Delete (after 2 [] : Scenario) Name.A = Except.ok ((none, false), after 2 []) :=
  ⟨Reachable_after _ _, by decide, C10_delete sAB Name.A (Reachable_after _ _), rfl⟩

/-- Claim C11: on a reachable state, if the cache is non-empty `Eject` removes exactly the
entry at the back of the recency order (the one `Last()` returned), whatever `maxLen` is:
its key is absent afterwards, `Len()` is one smaller and the remaining entries keep their
order; if the cache is empty `Eject` leaves the state, the trace of callback invocations
included, unchanged. -/
theorem C11_eject (c : CacheHash F K V) (hr : Reachable c) :
    (Len c ≠ 0 →
      ∃ c1 bk bv, Eject c = Except.ok c1 ∧ Last c = Except.ok (bk, bv) ∧
        (entries c).getLast? = some (bk, bv) ∧
        Has c bk = true ∧ Has c1 bk = false ∧
        Len c1 = Len c - 1 ∧
        entries c1 = (entries c).dropLast) ∧
    (Len c = 0 → Eject c = Except.ok c) := by
  have hc := hr.inv
  constructor
  · intro h0
    obtain ⟨e, x, hl, _, hx, hg, heq⟩ := Eject_nonempty hc h0
    have hlast := entries_getLast hl hx
    refine ⟨_, x.Key, x.Value, heq, ?_, hlast, ?_, ?_, rfl, entries_ejected hc hl⟩
    · rw [Last_eq hc, hlast]; rfl
    · simp [Has, hg]
    · show (mapGet (mapDelete c.h x.Key) x.Key).isSome = false
      rw [mapGet_mapDelete_self]; rfl
  · intro h0
    exact Eject_empty h0

/-- Claim C11 at capacity 3 holding only `A` (below capacity): `Eject` removes `A`. -/
theorem C11_eject_witness :
    Reachable sA3 ∧ Len sA3 ≠ 0 ∧ Len sA3 < sA3.maxLen ∧
    (Len sA3 ≠ 0 →
      ∃ c1 bk bv, Eject sA3 = Except.ok c1 ∧ Last sA3 = Except.ok (bk, bv) ∧
        (entries sA3).getLast? = some (bk, bv) ∧
        Has sA3 bk = true ∧ Has c1 bk = false ∧
        Len c1 = Len sA3 - 1 ∧
        entries c1 = (entries sA3).dropLast) ∧
    (Len sA3 = 0 → Eject sA3 = Except.ok sA3) :=
  ⟨Reachable_after _ _, by decide, by decide, C11_eject sA3 (Reachable_after _ _)⟩

/-- Claim C12: on a reachable state, `First()` returns the key and value of the front
entry of the recency order and `Last()` those of the back entry, neither call changes the
state, and on an empty cache both return the pair `(nil, nil)` without panic. -/
theorem C12_boundary_accessors (c : CacheHash F K V) (hr : Reachable c) :
    (∀ p t, entries c = p :: t → First c = Except.ok p) ∧
    (∀ p, (entries c).getLast? = some p → Last c = Except.ok p) ∧
    (Len c ≠ 0 → entries c ≠ []) ∧
    step c Op.First = Except.ok c ∧ step c Op.Last = Except.ok c ∧
    (Len c = 0 →
      First c = Except.ok (default, default) ∧ Last c = Except.ok (default, default)) := by
  have hc := hr.inv
  refine ⟨?_, ?_, ?_, ?_, ?_, ?_⟩
  · intro p t hp
    rw [First_eq hc, hp]; rfl
  · intro p hp
    rw [Last_eq hc, hp]; rfl
  · intro h0 hnil
    have hlen := entries_length hc
    rw [hnil] at hlen
    exact hc.l_ne_nil h0 (List.length_eq_zero.mp hlen.symm)
  · simp only [step, First_eq hc]; rfl
  · simp only [step, Last_eq hc]; rfl
  · intro h0
    have hl := hc.l_eq_nil h0
    have he : entries c = [] := by rw [entries, hl]; rfl
    exact ⟨by rw [First_eq hc, he]; rfl, by rw [Last_eq hc, he]; rfl⟩

/-- Claim C12 at capacity 2 holding `B` in front of `A`, and on the empty cache. -/
theorem C12_boundary_accessors_witness :
    Reachable sAB ∧
    ((∀ p t, entries sAB = p :: t → First sAB = Except.ok p) ∧
    (∀ p, (entries sAB).getLast? = some p → Last sAB = Except.ok p) ∧
    (Len sAB ≠ 0 → entries sAB ≠ []) ∧
    step sAB Op.First = Except.ok sAB ∧ step sAB Op.Last = Except.ok sAB ∧
    (Len sAB = 0 →
      First sAB = Except.ok (default, default) ∧
      Last sAB = Except.ok (default, default))) ∧
    First sAB = Except.ok (Name.B, some 2) ∧ Last sAB = Except.ok (Name.A, some 1) ∧
    First (after 2 [] : Scenario) = Except.ok (Name.nil, none) ∧
    Last (after 2 [] : Scenario) = Except.ok (Name.nil, none) :=
  ⟨Reachable_after _ _, C12_boundary_accessors sAB (Reachable_after _ _), rfl, rfl, rfl, rfl⟩

/-- Claim C13: for every `maxLen` and every finite sequence of `Add` calls applied to a
freshly initialised cache whose number of distinct keys is at most `maxLen`, no call
panics, `Len()` after the sequence is the number of distinct keys added, the present keys
are exactly the added keys, and no eviction occurred (no callback was invoked). -/
theorem C13_size_counts_distinct_keys (c0 : CacheHash F K V) (maxLen : Int)
    (kvs : List (K × V)) (h : ((kvs.map Prod.fst).dedup.length : Int) ≤ maxLen) :
    ∃ c, run (Init c0 maxLen) (kvs.map fun p => Op.Add p.1 p.2) = Except.ok c ∧
      Len c = ((kvs.map Prod.fst).dedup.length : Int) ∧
      (∀ p ∈ kvs, Has c p.1 = true) ∧
      (∀ k, Has c k = true → k ∈ kvs.map Prod.fst) ∧
      c.calls = c0.calls := by
  have hcard : (((kvs.map Prod.fst).toFinset).card : Int) ≤ (Init c0 maxLen).maxLen := by
    rw [List.card_toFinset]; exact h
  obtain ⟨c, hrun, hc, hmem, hcalls, _⟩ := run_adds (kvs.map Prod.fst).toFinset kvs
    (Init c0 maxLen) (Inv_Init c0 maxLen) (by simp [entries, Init])
    (fun p hp => List.mem_toFinset.mpr (List.mem_map_of_mem _ hp)) hcard
  have hmem1 : ∀ k, k ∈ (entries c).map Prod.fst ↔ k ∈ kvs.map Prod.fst := by
    intro k
    rw [hmem k]
    simp [entries, Init]
  refine ⟨c, hrun, ?_, ?_, ?_, hcalls⟩
  · have hset : ((entries c).map Prod.fst).toFinset = (kvs.map Prod.fst).toFinset := by
      ext k
      rw [List.mem_toFinset, List.mem_toFinset, hmem1 k]
    have hlen := List.toFinset_card_of_nodup (entries_keys_nodup hc)
    rw [hset, List.card_toFinset, List.length_map] at hlen
    rw [Len_eq hc, ← hlen]
  · intro p hp
    exact (Has_iff hc p.1).mpr ((hmem1 p.1).mpr (List.mem_map_of_mem _ hp))
  · intro k hk
    exact (hmem1 k).mp ((Has_iff hc k).mp hk)

/-- Claim C13 at capacity 2 with the calls `Add(A,1)`, `Add(B,2)`, `Add(A,3)`: two
distinct keys, `Len() == 2`. -/
theorem C13_size_counts_distinct_keys_witness :
    ((([(Name.A, some 1), (Name.B, some 2), (Name.A, some 3)].map Prod.fst).dedup.length
      : Int) ≤ 2) ∧
    ∃ c : Scenario,
      run (Init zero 2)
        ([(Name.A, some 1), (Name.B, some 2), (Name.A, some 3)].map
          fun p => Op.Add p.1 p.2) = Except.ok c ∧
      Len c = ((([(Name.A, some 1), (Name.B, some 2), (Name.A, some 3)].map
        Prod.fst).dedup.length : Nat) : Int) ∧
      (∀ p ∈ [(Name.A, some 1), (Name.B, some 2), (Name.A, some 3)], Has c p.1 = true) ∧
      (∀ k, Has c k = true →
        k ∈ [(Name.A, some 1), (Name.B, some 2), (Name.A, some 3)].map Prod.fst) ∧
      c.calls = (zero : Scenario).calls :=
  ⟨by decide, C13_size_counts_distinct_keys zero 2 _ (by decide)⟩

/-- Claim C14 fails as stated: at capacity 0, with the callback `f` registered, `Add(A, 1)`
on the empty cache right after `Init` removes no entry and invokes no callback; the new
entry stays and `Len()` becomes 1. -/
theorem C14_no_eviction_on_empty_cache :
    Reachable s0f ∧ s0f.maxLen ≤ 0 ∧ s0f.ejectCB = some Callback.f ∧
    Has s0f Name.A = false ∧ entries s0f = [] ∧ s0f.calls = [] ∧
    Eject s0f = Except.ok s0f ∧
    (∃ c1, Add s0f Name.A (some 1) = Except.ok (false, c1) ∧
      c1.calls = [] ∧ entries c1 = [(Name.A, some 1)] ∧ Len c1 = 1) ∧
    ¬ ∃ c1 bk bv, Add s0f Name.A (some 1) = Except.ok (false, c1) ∧
      c1.calls = s0f.calls ++ [(Callback.f, bk, bv)] := by
  refine ⟨Reachable_after _ _, by decide, by decide, by decide, by decide, by decide, rfl,
    ⟨_, rfl, by decide, by decide, by decide⟩, ?_⟩
  rintro ⟨c1, bk, bv, h1, h2⟩
  have h3 : Add s0f Name.A (some 1) = Except.ok (false, pushed s0f Name.A (some 1)) := rfl
  rw [h3] at h1
  have h4 : pushed s0f Name.A (some 1) = c1 := congrArg Prod.snd (Except.ok.inj h1)
  have h5 : (pushed s0f Name.A (some 1)).calls = [] := by decide
  have h6 : s0f.calls = [] := by decide
  rw [← h4, h5, h6] at h2
  simp at h2

/-- Claim C14, amended: on a reachable state of a cache with `maxLen <= 0`, `Add(k, v)` for
an absent key `k` returns false and leaves `(k, v)` as the only entry.  If the cache was
empty no entry is removed and no callback is invoked; otherwise the cache held exactly one
entry, which is removed, and the registered callback, if any, is invoked once with it. -/
theorem C14_degenerate_capacity (c : CacheHash F K V) (k : K) (v : V)
    (hr : Reachable c) (hm : c.maxLen ≤ 0) (hk : Has c k = false) :
    (Len c = 0 →
      ∃ c1, Add c k v = Except.ok (false, c1) ∧ c1.calls = c.calls ∧
        entries c = [] ∧ entries c1 = [(k, v)] ∧ Len c1 = 1) ∧
    (Len c ≠ 0 →
      ∃ c1 bk bv, Add c k v = Except.ok (false, c1) ∧
        entries c = [(bk, bv)] ∧ entries c1 = [(k, v)] ∧ Has c1 bk = false ∧
        Len c = 1 ∧ Len c1 = 1 ∧
        c1.calls = (match c.ejectCB with
          | some f => c.calls ++ [(f, bk, bv)]
          | none => c.calls)) := by
  have hc := hr.inv
  have hk0 := Has_eq_false.mp hk
  have hb := hc.bound
  rw [max_eq_right (by omega)] at hb
  have hnn := hc.len_nonneg
  constructor
  · intro h0
    have h0' : c.len = 0 := h0
    have he : entries c = [] := by rw [entries, hc.l_eq_nil h0']; rfl
    refine ⟨_, Add_absent_empty v hk0 h0', rfl, he, ?_, ?_⟩
    · rw [entries_pushed hc k v, he]
    · show c.len + 1 = 1
      omega
  · intro h0
    have h0' : c.len ≠ 0 := h0
    have h1 : c.len = 1 := by omega
    obtain ⟨e, x, hl, he, hx, hg, heq⟩ := Add_absent_full hc v hk0 (by omega) h0'
    have hlast := entries_getLast hl hx
    have hlen : (entries c).length = 1 := by
      rw [entries_length hc]
      have := hc.size
      omega
    have hent : entries c = [(x.Key, x.Value)] := by
      cases hE : entries c with
      | nil => rw [hE] at hlen; simp at hlen
      | cons p t =>
        rw [hE] at hlen hlast
        have ht : t = [] := List.length_eq_zero.mp (by simpa using hlen)
        subst ht
        simp at hlast
        rw [hlast]
    have hne : x.Key ≠ k := by
      intro h'
      rw [h', hk0] at hg
      exact absurd hg (by simp)
    refine ⟨_, x.Key, x.Value, heq, hent, ?_, ?_, h1, ?_, rfl⟩
    · rw [entries_pushed (Inv_ejected hc he hx), entries_ejected hc hl, hent]; rfl
    · show (mapGet (mapSet (mapDelete c.h x.Key) k _) x.Key).isSome = false
      rw [mapGet_mapSet_ne _ _ hne, mapGet_mapDelete_self]; rfl
    · show c.len - 1 + 1 = 1
      omega

/-- Claim C14, amended, at capacity 0 with `f` registered and `A` held: `Add(B, 2)`
removes `A` and invokes `f(A, 1)`. -/
theorem C14_degenerate_capacity_witness :
    (Reachable s0fA ∧ s0fA.maxLen ≤ 0 ∧ Has s0fA Name.B = false ∧ Len s0fA ≠ 0) ∧
    ((Len s0fA = 0 →
      ∃ c1, Add s0fA Name.B (some 2) = Except.ok (false, c1) ∧ c1.calls = s0fA.calls ∧
        entries s0fA = [] ∧ entries c1 = [(Name.B, some 2)] ∧ Len c1 = 1) ∧
    (Len s0fA ≠ 0 →
      ∃ c1 bk bv, Add s0fA Name.B (some 2) = Except.ok (false, c1) ∧
        entries s0fA = [(bk, bv)] ∧ entries c1 = [(Name.B, some 2)] ∧ Has c1 bk = false ∧
        Len s0fA = 1 ∧ Len c1 = 1 ∧
        c1.calls = (match s0fA.ejectCB with
          | some g => s0fA.calls ++ [(g, bk, bv)]
          | none => s0fA.calls))) ∧
    (after 0 [Op.RegisterCB (some Callback.f), Op.Add Name.A (some 1),
      Op.Add Name.B (some 2)] : Scenario).calls = [(Callback.f, Name.A, some 1)] :=
  ⟨⟨Reachable_after _ _, by decide, by decide, by decide⟩,
   C14_degenerate_capacity s0fA Name.B (some 2) (Reachable_after _ _) (by decide)
     (by decide),
   by decide⟩

/-- Claim C15 fails as stated: `Init(1)` on a receiver on which `RegisterCB(f)` was called
leaves `f` registered; the following `Add(A,1)`, `Add(B,2)` invoke it with `(A, 1)`. -/
theorem C15_init_keeps_registered_callback :
    zf.ejectCB = some Callback.f ∧
    (Init zf 1).ejectCB = some Callback.f ∧ (Init zf 1).ejectCB ≠ none ∧
    ∃ c, run (Init zf 1) [Op.Add Name.A (some 1), Op.Add Name.B (some 2)] = Except.ok c ∧
      c.calls = [(Callback.f, Name.A, some 1)] :=
  ⟨by decide, by decide, by decide, _, rfl, by decide⟩

/-- Claim C15, amended: for every `maxLen` and every state of the receiver, `Init(maxLen)`
yields an empty cache: `Len() == 0`, `Has(k)` is false for every key, `First()` and
`Last()` return `(nil, nil)`, the capacity is `maxLen`; the eviction callback is the one
the receiver had before the call, so none is registered on a zero-valued receiver. -/
theorem C15_initialisation (c : CacheHash F K V) (maxLen : Int) :
    Len (Init c maxLen) = 0 ∧
    (∀ k, Has (Init c maxLen) k = false) ∧
    First (Init c maxLen) = Except.ok (default, default) ∧
    Last (Init c maxLen) = Except.ok (default, default) ∧
    entries (Init c maxLen) = [] ∧
    (Init c maxLen).maxLen = maxLen ∧
    (Init c maxLen).ejectCB = c.ejectCB ∧
    (Init (zero : CacheHash F K V) maxLen).ejectCB = none :=
  ⟨rfl, fun _ => rfl, rfl, rfl, rfl, rfl, rfl, rfl⟩

/-- Claim C17 fails as stated: after the caller locked the mutex (`c.Lock()`), an operation
that acquired the lock itself would wait for it, but `Add(C, 3)` runs to completion,
changes the recency order and returns with the mutex still locked.  No method of the
source acquires or releases the lock. -/
theorem C17_operations_do_not_acquire_the_lock :
    Lock sAB = some sHeld ∧ sHeld.Mutex = true ∧
    specGuardedStep sHeld (Op.Add Name.C (some 3)) = none ∧
    entries sHeld = [(Name.B, some 2), (Name.A, some 1)] ∧
    ∃ c1, step sHeld (Op.Add Name.C (some 3)) = Except.ok c1 ∧ c1.Mutex = true ∧
      entries c1 = [(Name.C, some 3), (Name.B, some 2)] :=
  ⟨by decide, by decide, rfl, by decide, _, rfl, by decide, by decide⟩

/-- Claim C17, amended: on a reachable state every public operation (`Add`, `Get`,
`GetNoMove`, `Has`, `Delete`, `First`, `Last`, `Eject`, `Len`, `RegisterCB`) runs to
completion whether or not the embedded mutex is locked, does the same in both cases, and
leaves the mutex as it found it: the lock is left to the caller. -/
theorem C17_lock_is_left_to_the_caller (c : CacheHash F K V) (op : Op F K V)
    (hr : Reachable c) :
    ∃ c1, step c op = Except.ok c1 ∧ c1.Mutex = c.Mutex ∧
      ∀ b, step { c with Mutex := b } op = Except.ok { c1 with Mutex := b } := by
  obtain ⟨c1, h1⟩ := step_ok hr.inv op
  refine ⟨c1, h1, step_Mutex_eq op h1, fun b => ?_⟩
  rw [step_Mutex, h1]; rfl

/-- Claim C17, amended, at capacity 2 holding `A` and `B`, for the call `Add(C, 3)`. -/
theorem C17_lock_is_left_to_the_caller_witness :
    Reachable sAB ∧
    ∃ c1, step sAB (Op.Add Name.C (some 3)) = Except.ok c1 ∧ c1.Mutex = sAB.Mutex ∧
      ∀ b, step { sAB with Mutex := b } (Op.Add Name.C (some 3))
        = Except.ok { c1 with Mutex := b } :=
  ⟨Reachable_after _ _,
   C17_lock_is_left_to_the_caller sAB (Op.Add Name.C (some 3)) (Reachable_after _ _)⟩

/-- Claim C18: in every reachable state the key set of the index `h` is the set of keys
held by the nodes of the list `l`, no key occurs in two nodes, `h` maps each key to the
node holding that key (and each node is the one `h` gives for its key), and the counter
`len` equals both the number of map entries and the number of list nodes. -/
theorem C18_index_recency_synchronisation (c : CacheHash F K V) (hr : Reachable c) :
    (∀ k, k ∈ c.h.map Prod.fst ↔ k ∈ (entries c).map Prod.fst) ∧
    ((entries c).map Prod.fst).Nodup ∧ c.l.Nodup ∧ (c.h.map Prod.fst).Nodup ∧
    (∀ k e, mapGet c.h k = some e →
      e ∈ c.l ∧ ∃ x, c.mem[e]? = some (Any.kv x) ∧ x.Key = k) ∧
    (∀ e ∈ c.l, ∃ x, c.mem[e]? = some (Any.kv x) ∧ mapGet c.h x.Key = some e) ∧
    c.len = (c.h.length : Int) ∧ c.len = (c.l.length : Int) ∧
    (entries c).length = c.l.length := by
  have hc := hr.inv
  refine ⟨?_, entries_keys_nodup hc, hc.nodup, hc.keys, hc.index, hc.node, ?_, hc.size,
    entries_length hc⟩
  · intro k
    rw [← Has_iff hc k]
    constructor
    · intro hk
      cases hg : mapGet c.h k with
      | none => exact absurd hk (mapGet_eq_none.mp hg)
      | some e => simp [Has, hg]
    · intro hk
      by_contra hn
      rw [Has_eq_false.mpr (mapGet_eq_none.mpr hn)] at hk
      exact absurd hk (by simp)
  · rw [hc.size, hc.hsize]

/-- Claim C18 at capacity 2 after `A`, `B`, `C` were added (one eviction). -/
theorem C18_index_recency_synchronisation_witness :
    Reachable sABC ∧
    (∀ k, k ∈ sABC.h.map Prod.fst ↔ k ∈ (entries sABC).map Prod.fst) ∧
    ((entries sABC).map Prod.fst).Nodup ∧ sABC.l.Nodup ∧ (sABC.h.map Prod.fst).Nodup ∧
    (∀ k e, mapGet sABC.h k = some e →
      e ∈ sABC.l ∧ ∃ x, sABC.mem[e]? = some (Any.kv x) ∧ x.Key = k) ∧
    (∀ e ∈ sABC.l, ∃ x, sABC.mem[e]? = some (Any.kv x) ∧ mapGet sABC.h x.Key = some e) ∧
    sABC.len = (sABC.h.length : Int) ∧ sABC.len = (sABC.l.length : Int) ∧
    (entries sABC).length = sABC.l.length :=
  ⟨Reachable_after _ _, C18_index_recency_synchronisation sABC (Reachable_after _ _)⟩

/-- Claim C19: in every reachable state no call of `Add`, `Get`, `GetNoMove`, `Delete`,
`Eject`, `First` or `Last` panics: every list node holds a `keyValue`, and `len == 0`
holds exactly when the list is empty, so that the front and the back node exist whenever
`Eject`, `First` and `Last` read them. -/
theorem C19_fatal_branch_unreachable (c : CacheHash F K V) (hr : Reachable c) :
    (∀ k v, ∃ r, Add c k v = Except.ok r) ∧
    (∀ k, ∃ r, Get c k = Except.ok r) ∧
    (∀ k, ∃ r, GetNoMove c k = Except.ok r) ∧
    (∀ k, ∃ r, Delete c k = Except.ok r) ∧
    (∃ r, Eject c = Except.ok r) ∧
    (∃ r, First c = Except.ok r) ∧
    (∃ r, Last c = Except.ok r) ∧
    (∀ e ∈ c.l, ∃ x, c.mem[e]? = some (Any.kv x)) ∧
    (c.len = 0 ↔ c.l = []) ∧
    (c.len ≠ 0 → ∃ e1 e2, Front c.l = some e1 ∧ Back c.l = some e2) := by
  have hc := hr.inv
  have hmap : ∀ {α : Type} (x : Except Fault α) (g : α → CacheHash F K V) (c1 : CacheHash F K V),
      Except.map g x = Except.ok c1 → ∃ r, x = Except.ok r := by
    intro α x g c1 h
    cases x with
    | error f => cases h
    | ok r => exact ⟨r, rfl⟩
  refine ⟨?_, ?_, ?_, ?_, ?_, ⟨_, First_eq hc⟩, ⟨_, Last_eq hc⟩, ?_, ?_, ?_⟩
  · intro k v
    obtain ⟨c1, h1⟩ := step_ok hc (Op.Add k v)
    exact hmap _ _ _ h1
  · intro k
    obtain ⟨c1, h1⟩ := step_ok hc (Op.Get k)
    exact hmap _ _ _ h1
  · intro k
    obtain ⟨c1, h1⟩ := step_ok hc (Op.GetNoMove k)
    exact hmap _ _ _ h1
  · intro k
    obtain ⟨c1, h1⟩ := step_ok hc (Op.Delete k)
    exact hmap _ _ _ h1
  · exact step_ok hc Op.Eject
  · intro e he
    obtain ⟨x, hx, _⟩ := hc.node e he
    exact ⟨x, hx⟩
  · constructor
    · exact hc.l_eq_nil
    · intro hl
      rw [hc.size, hl]; rfl
  · intro h0
    have hne := hc.l_ne_nil h0
    refine ⟨c.l.head hne, c.l.getLast hne, ?_, List.getLast?_eq_getLast _ hne⟩
    exact List.head?_eq_head hne

/-- Claim C19 at capacity 2 holding `A` and `B`. -/
theorem C19_fatal_branch_unreachable_witness :
    Reachable sAB ∧
    (∀ k v, ∃ r, Add sAB k v = Except.ok r) ∧
    (∀ k, ∃ r, Get sAB k = Except.ok r) ∧
    (∀ k, ∃ r, GetNoMove sAB k = Except.ok r) ∧
    (∀ k, ∃ r, Delete sAB k = Except.ok r) ∧
    (∃ r, Eject sAB = Except.ok r) ∧
    (∃ r, First sAB = Except.ok r) ∧
    (∃ r, Last sAB = Except.ok r) ∧
    (∀ e ∈ sAB.l, ∃ x, sAB.mem[e]? = some (Any.kv x)) ∧
    (sAB.len = 0 ↔ sAB.l = []) ∧
    (sAB.len ≠ 0 → ∃ e1 e2, Front sAB.l = some e1 ∧ Back sAB.l = some e2) :=
  ⟨Reachable_after _ _, C19_fatal_branch_unreachable sAB (Reachable_after _ _)⟩

/-- Claim C20: on a reachable state with `Len() >= maxLen`, `Add(k, v)` for an absent key
`k` ends in the same state, with the same return value and the same trace of callback
invocations, as `Eject()` followed by `Add(k, v)`. -/
theorem C20_automatic_and_manual_eviction_coincide (c : CacheHash F K V) (k : K) (v : V)
    (hr : Reachable c) (hge : Len c ≥ c.maxLen) (hk : Has c k = false) :
    ∃ c1 c2,
      Eject c = Except.ok c1 ∧
      Add c1 k v = Except.ok (false, c2) ∧
      Add c k v = Except.ok (false, c2) := by
  have hc := hr.inv
  have hk0 := Has_eq_false.mp hk
  have hge0 : c.len ≥ c.maxLen := hge
  by_cases h0 : c.len = 0
  · exact ⟨c, _, Eject_empty h0, Add_absent_empty v hk0 h0, Add_absent_empty v hk0 h0⟩
  · obtain ⟨e, x, _, _, _, _, heq⟩ := Eject_nonempty hc h0
    have hadd : Add c k v = Except.ok (false, pushed (ejected c e x) k v) := by
      simp only [Add, hk0, hge0, if_true, heq]; rfl
    have hk1 : mapGet (ejected c e x).h k = none := mapGet_ejected_none hk0
    have hlen : (ejected c e x).len = c.len - 1 := rfl
    have hmax : (ejected c e x).maxLen = c.maxLen := rfl
    have hb := hc.bound
    have hnn := hc.len_nonneg
    refine ⟨_, _, heq, ?_, hadd⟩
    by_cases hm : 1 ≤ c.maxLen
    · rw [max_eq_left hm] at hb
      exact Add_absent_room v hk1 (by rw [hlen, hmax]; omega)
    · rw [max_eq_right (by omega)] at hb
      exact Add_absent_empty v hk1 (by rw [hlen]; omega)

/-- Claim C20 at capacity 2 holding `A` and `B`, for the absent key `C`: both ways end in
the cache holding `C` in front of `B`. -/
theorem C20_automatic_and_manual_eviction_coincide_witness :
    (Reachable sAB ∧ Len sAB ≥ sAB.maxLen ∧ Has sAB Name.C = false) ∧
    (∃ c1 c2,
      Eject sAB = Except.ok c1 ∧
      Add c1 Name.C (some 3) = Except.ok (false, c2) ∧
      Add sAB Name.C (some 3) = Except.ok (false, c2)) ∧
    Add sAB Name.C (some 3) = Except.ok (false, sABC) :=
  ⟨⟨Reachable_after _ _, by decide, by decide⟩,
   C20_automatic_and_manual_eviction_coincide sAB Name.C (some 3) (Reachable_after _ _)
     (by decide) (by decide),
   rfl⟩

end claims

end cachehash

namespace dmarc

theorem starLoop_iff (cs : List Char) (k : List Char → Bool) :
    ∀ s, starLoop cs k s = true ↔
      ∃ w rest, s = w ++ rest ∧ (∀ x ∈ w, x ∈ cs) ∧ k rest = true := by
  intro s
  induction s with
  | nil =>
    constructor
    · intro h
      exact ⟨[], [], rfl, by simp, h⟩
    · rintro ⟨w, rest, h, _, hk⟩
      obtain ⟨_, h2⟩ := List.append_eq_nil.mp h.symm
      rw [h2] at hk
      exact hk
  | cons c t ih =>
    simp only [starLoop, Bool.or_eq_true, Bool.and_eq_true, ih]
    constructor
    · rintro (h | ⟨hc, w, rest, ht, hw, hk⟩)
      · exact ⟨[], c :: t, rfl, by simp, h⟩
      · refine ⟨c :: w, rest, by rw [ht]; rfl, ?_, hk⟩
        intro x hx
        rcases List.mem_cons.mp hx with rfl | hx
        · exact List.elem_iff.mp hc
        · exact hw x hx
    · rintro ⟨w, rest, h, hw, hk⟩
      cases w with
      | nil =>
        left
        rw [h]; exact hk
      | cons x w1 =>
        right
        have hx : c = x := (List.cons.inj h).1
        have ht : t = w1 ++ rest := (List.cons.inj h).2
        subst hx
        exact ⟨List.elem_iff.mpr (hw c (List.mem_cons_self _ _)), w1, rest, ht,
          fun y hy => hw y (List.mem_cons_of_mem _ hy), hk⟩

theorem matchItems_cls (cs : List Char) (rest : List Item) (s : List Char) :
    matchItems (Item.cls cs :: rest) s = true ↔
      ∃ c t, s = c :: t ∧ c ∈ cs ∧ matchItems rest t = true := by
  cases s with
  | nil => simp [matchItems]
  | cons c t =>
    simp only [matchItems, Bool.and_eq_true]
    constructor
    · rintro ⟨hc, hr⟩
      exact ⟨c, t, rfl, List.elem_iff.mp hc, hr⟩
    · rintro ⟨c1, t1, h, hc, hr⟩
      obtain ⟨h1, h2⟩ := List.cons.inj h
      subst h1 h2
      exact ⟨List.elem_iff.mpr hc, hr⟩

theorem matchItems_star (cs : List Char) (rest : List Item) (s : List Char) :
    matchItems (Item.star cs :: rest) s = true ↔
      ∃ w r, s = w ++ r ∧ (∀ x ∈ w, x ∈ cs) ∧ matchItems rest r = true := by
  rw [matchItems]
  exact starLoop_iff cs (matchItems rest) s

/-- Claim C16 fails as stated: the tag in lower case, `v=dmarc1;`, and the tag after a
space, ` v=DMARC1;`, are prefixes of the kind the specification describes, and the
pattern of the source matches neither. -/
theorem C16_lower_case_tag_is_not_matched :
    matchItems specPrefix ['v', '=', 'd', 'm', 'a', 'r', 'c', '1', ';'] = true ∧
    matchItems dmarcPrefixRegexp ['v', '=', 'd', 'm', 'a', 'r', 'c', '1', ';'] = false ∧
    matchItems specPrefix [' ', 'v', '=', 'D', 'M', 'A', 'R', 'C', '1', ';'] = true ∧
    matchItems dmarcPrefixRegexp [' ', 'v', '=', 'D', 'M', 'A', 'R', 'C', '1', ';'] = false :=
  ⟨by decide, by decide, by decide, by decide⟩

/-- Claim C16, amended: the pattern `dmarcPrefixRegexp` matches a text exactly when the
text begins with `v` or `V`, any number of tabs and spaces, `=`, any number of tabs and
spaces, the upper-case letters `DMARC1`, any number of tabs and spaces, and `;`.  Only
the letter `v` is compared case-insensitively, and nothing may stand before it. -/
theorem C16_dmarc_prefix_pattern (s : List Char) :
    matchItems dmarcPrefixRegexp s = true ↔
      ∃ c w1 w2 w3 rest,
        (c = 'v' ∨ c = 'V') ∧ (∀ x ∈ w1, x ∈ wsp) ∧ (∀ x ∈ w2, x ∈ wsp) ∧
        (∀ x ∈ w3, x ∈ wsp) ∧
        s = c :: (w1 ++ '=' :: (w2 ++ 'D' :: 'M' :: 'A' :: 'R' :: 'C' :: '1' ::
          (w3 ++ ';' :: rest))) := by
  simp only [dmarcPrefixRegexp, matchItems_cls, matchItems_star, List.mem_cons,
    List.mem_singleton, List.not_mem_nil, or_false]
  constructor
  · rintro ⟨c, t, rfl, hc, w1, r1, rfl, hw1, c2, t2, rfl, rfl, w2, r2, rfl, hw2,
      cD, tD, rfl, rfl, cM, tM, rfl, rfl, cA, tA, rfl, rfl, cR, tR, rfl, rfl,
      cC, tC, rfl, rfl, c1, t1, rfl, rfl, w3, r3, rfl, hw3, c4, t4, rfl, rfl,
      w4, r4, rfl, _, _⟩
    exact ⟨c, w1, w2, w3, w4 ++ r4, hc, hw1, hw2, hw3, rfl⟩
  · rintro ⟨c, w1, w2, w3, rest, hc, hw1, hw2, hw3, rfl⟩
    exact ⟨c, _, rfl, hc, w1, _, rfl, hw1, _, _, rfl, rfl, w2, _, rfl, hw2,
      _, _, rfl, rfl, _, _, rfl, rfl, _, _, rfl, rfl, _, _, rfl, rfl,
      _, _, rfl, rfl, _, _, rfl, rfl, w3, _, rfl, hw3, _, _, rfl, rfl,
      [], rest, rfl, by simp, by simp [matchItems]⟩

end dmarc
